import Mathlib

/-!
Verification of the `meg-rc` radix converter (`src/RadixConverter.ts`).

Strings are modelled as `List Char`.  JavaScript `Map` objects are modelled
as association lists with `Map.set` overwrite semantics.  The JS engine's
stable `Array.prototype.sort` with comparator `(a, b) => b.length - a.length`
is modelled by a stable insertion sort on descending length.  Loops whose
termination depends on runtime values (`fromDecimal`'s division loop, the
greedy tokenizer) are modelled with explicit fuel; running out of fuel,
which corresponds to JS non-termination, is the distinguished error
`JsErr.noTerm`.  JS `number` inputs are modelled as rationals (every finite
double is rational); `Math.floor` is `Int.floor`, the JS `%` operator on
integers is `Int.tmod` (sign of the dividend) and `Math.floor(d / r)` on
integers is `Int.fdiv`.
-/

deriving instance DecidableEq for Except

/-- A JS string, modelled as its list of characters. -/
abbrev Str := List Char

/-- The characters of the JS string `"undefined"`, produced by coercing
`undefined` to a string (`"" + undefined`). -/
def undefStr : Str := ['u', 'n', 'd', 'e', 'f', 'i', 'n', 'e', 'd']

/-- Kinds of exceptions thrown by the source, with the tokens named in the
message carried as payload: `TypeError`, `RangeError`, `SyntaxError`.
`noTerm` marks a non-terminating execution (it is what the fuel-based
models return when the corresponding JS loop would run forever). -/
inductive JsErr where
  | typeE (toks : List Str)
  | rangeE
  | synE (toks : List Str)
  | noTerm
deriving DecidableEq

/-- `true` on `Except.ok`. -/
def isOkE {α : Type} (e : Except JsErr α) : Bool :=
  match e with
  | .ok _ => true
  | .error _ => false

/-- The success value of an `Except`, dropping the error message (used to
compare the code with the spec's reference definition, which does not fix
error messages). -/
def okOf {α : Type} (e : Except JsErr α) : Option α :=
  match e with
  | .ok a => some a
  | .error _ => none

/-- JS `Map.get`: first entry with the given key (keys are unique in a JS
map, so first = only). -/
def mapGet : List (Str × Nat) → Str → Option Nat
  | [], _ => none
  | (k', v') :: rest, k => if k' = k then some v' else mapGet rest k

/-- JS `Map.set`: overwrite the value at an existing key (keeping its
position), otherwise append the new entry. -/
def mapSet : List (Str × Nat) → Str → Nat → List (Str × Nat)
  | [], k, v => [(k, v)]
  | (k', v') :: rest, k, v =>
      if k' = k then (k, v) :: rest else (k', v') :: mapSet rest k v

/-- `this.numerals.forEach((e, i) => this.numeralValues.set(e, i))`,
starting from index `i`. -/
def buildMapGo : List (Str × Nat) → Nat → List Str → List (Str × Nat)
  | m, _, [] => m
  | m, i, t :: ts => buildMapGo (mapSet m t i) (i + 1) ts

/-- The `numeralValues` map: each numeral is mapped to its index; a
duplicated numeral keeps the position of its first occurrence but the value
of its last index (JS `Map.set` overwrite). -/
def buildMap (nums : List Str) : List (Str × Nat) := buildMapGo [] 0 nums

/-- Insert into a list sorted by descending length, after all elements of
length ≥ the new element's length (the stable position). -/
def insertDesc (x : Str) : List Str → List Str
  | [] => [x]
  | y :: ys => if x.length ≤ y.length then y :: insertDesc x ys else x :: y :: ys

/-- `this.numerals.concat().sort((a, b) => b.length - a.length)`: the
stable sort by descending length. -/
def sortDesc (l : List Str) : List Str := l.foldl (fun acc x => insertDesc x acc) []

/-- The inner recursive `validate` closure of `#validateNumerals`.
`tests` is the full list of other numerals, `orig` the numeral being
validated, `str` the current residual and `rem` the part of `tests` still
to be tried at this level.  The dead branch (reached only when a test
numeral is empty, in which case the JS recursion would not terminate) is
unreachable from the constructor, which rejects empty numerals first. -/
def valGo (tests : List Str) (orig : Str) : (str : Str) → (rem : List Str) → Except JsErr Unit
  | _, [] => .ok ()
  | str, t :: rem =>
      if t <+: str then
        if str.drop t.length = [] then
          .error (.typeE (if orig = t then [t] else [orig, t]))
        else
          if h : (str.drop t.length).length < str.length then
            match valGo tests orig (str.drop t.length) tests with
            | .error e => .error e
            | .ok () => valGo tests orig str rem
          else
            .error (.typeE [])
      else
        if str ≠ orig ∧ str <+: t then
          .error (.typeE [orig, t])
        else
          valGo tests orig str rem
termination_by str rem => (str.length, rem.length)
decreasing_by
  · exact Prod.Lex.left _ _ h
  · exact Prod.Lex.right _ (by simp)
  · exact Prod.Lex.right _ (by simp)

/-- `#validateNumerals`: for each numeral `e` (with `pre` the numerals
before it and `post` the ones after it), run `valGo` with the other
numerals as tests. -/
def valAllGo : List Str → List Str → Except JsErr Unit
  | _, [] => .ok ()
  | pre, e :: post =>
      match valGo (pre ++ post) e e (pre ++ post) with
      | .error err => .error err
      | .ok () => valAllGo (pre ++ [e]) post

/-- `#validateNumerals()` on the whole numeral list. -/
def validateAll (nums : List Str) : Except JsErr Unit := valAllGo [] nums

/-- The constructed `RadixConverter` instance.  `orderedNumerals` is
`none` in string (single-character) mode, mirroring the source's
`#orderedNumerals: string[] | null`. -/
structure Converter where
  numerals : List Str
  radix : Nat
  numeralValues : List (Str × Nat)
  orderedNumerals : Option (List Str)
deriving DecidableEq

/-- The `numerals.map(...)` step of array mode: coerce each element (a
no-op for strings) and throw `TypeError` on an empty numeral. -/
def coerceNumerals : List Str → Except JsErr (List Str)
  | [] => .ok []
  | t :: ts =>
      if t = [] then .error (.typeE [])
      else
        match coerceNumerals ts with
        | .error e => .error e
        | .ok ts' => .ok (t :: ts')

/-- The constructor in array mode (`Array.isArray(numerals)` true):
empty-numeral check, optional validation, stable length-descending sort,
radix check, `numeralValues` construction. -/
def makeFromArray (nums : List Str) (validate : Bool) : Except JsErr Converter := do
  let numerals ← coerceNumerals nums
  if validate then validateAll numerals
  let ordered := sortDesc numerals
  if numerals.length ≤ 1 then
    throw .rangeE
  return { numerals := numerals
           radix := numerals.length
           numeralValues := buildMap numerals
           orderedNumerals := some ordered }

/-- `[...("" + numerals[0])]`: the source spreads the string form of the
FIRST character only (`numerals[0]`); for the empty string `numerals[0]`
is `undefined` and `"" + undefined` is `"undefined"`. -/
def jsStrChars (s : Str) : List Str :=
  match s with
  | [] => undefStr.map (fun ch => [ch])
  | ch :: _ => [[ch]]

/-- The constructor in string mode: build the numeral list via
`jsStrChars`, optionally check distinctness (`new Set(...).size`),
`#orderedNumerals = null`, radix check, `numeralValues` construction. -/
def makeFromString (s : Str) (validate : Bool) : Except JsErr Converter := do
  let numerals := jsStrChars s
  if validate ∧ ¬ numerals.Nodup then
    throw (.synE [])
  if numerals.length ≤ 1 then
    throw .rangeE
  return { numerals := numerals
           radix := numerals.length
           numeralValues := buildMap numerals
           orderedNumerals := none }

/-- `this.numerals[idx]` for a possibly out-of-range signed index: a valid
index yields the numeral, anything else is `undefined`, which string
concatenation coerces to `"undefined"`. -/
def numAt (c : Converter) (idx : Int) : Str :=
  if h : 0 ≤ idx ∧ idx.toNat < c.numerals.length then
    c.numerals.get ⟨idx.toNat, h.2⟩
  else
    undefStr

/-- The `do { ... } while (d !== 0)` loop of `fromDecimal`: prepend
`numerals[d % radix]`, replace `d` by `Math.floor(d / radix)`, stop when
the new `d` is `0`.  Fuel exhaustion (`noTerm`) models JS divergence. -/
def fromDecimalGo (c : Converter) : Nat → Int → Str → Except JsErr Str
  | 0, d, acc =>
      let acc' := numAt c (d.tmod c.radix) ++ acc
      if d.fdiv c.radix = 0 then .ok acc' else .error .noTerm
  | fuel + 1, d, acc =>
      let acc' := numAt c (d.tmod c.radix) ++ acc
      let d' := d.fdiv c.radix
      if d' = 0 then .ok acc' else fromDecimalGo c fuel d' acc'

/-- `fromDecimal`: `d = Math.floor(+num)` (always finite for a rational
input, so the `Number.isFinite` guard passes), then the division loop.
The fuel `d.natAbs` is enough for every non-negative `d`; for negative `d`
the JS loop never terminates and the model returns `noTerm` (which it does
at every fuel). -/
def fromDecimal (c : Converter) (q : ℚ) : Except JsErr Str :=
  let d : Int := ⌊q⌋
  fromDecimalGo c d.natAbs d []

/-- One probe of the greedy tokenizer: the first numeral of
`orderedNumerals` that is a prefix of the remaining input. -/
def firstMatch (ord : List Str) (s : Str) : Option Str :=
  ord.find? (fun u => u.isPrefixOf s)

/-- The `while (substr.length > 0)` greedy loop of `#splitNum`: take the
first (longest-first) matching numeral, or throw `SyntaxError` naming the
unmatched remainder.  Fuel exhaustion models divergence (possible in JS
only with an empty numeral, which the constructor rejects). -/
def greedyGo (ord : List Str) : Nat → Str → Except JsErr (List Str)
  | _, [] => .ok []
  | 0, _ :: _ => .error .noTerm
  | fuel + 1, ch :: rest =>
      match firstMatch ord (ch :: rest) with
      | none => .error (.synE [ch :: rest])
      | some u =>
          match greedyGo ord fuel ((ch :: rest).drop u.length) with
          | .error e => .error e
          | .ok toks => .ok (u :: toks)

/-- `#splitNum`: characters in string mode (`#orderedNumerals === null`),
greedy longest-match tokenization in array mode. -/
def splitNum (c : Converter) (s : Str) : Except JsErr (List Str) :=
  match c.orderedNumerals with
  | none => .ok (s.map (fun ch => [ch]))
  | some ord => greedyGo ord s.length s

/-- The positional value `Σ dᵢ * radix ^ (L - 1 - i)` computed by the
`map`/`reduce` of `intoDecimal`, on the list of digit values. -/
def posValue (r : Nat) : List Nat → Nat
  | [] => 0
  | d :: ds => d * r ^ ds.length + posValue r ds

/-- The per-token lookup of `intoDecimal`: `numeralValues.get(c)`,
throwing `SyntaxError` naming the token when it is absent. -/
def lookupE (c : Converter) (t : Str) : Except JsErr Nat :=
  match mapGet c.numeralValues t with
  | some v => .ok v
  | none => .error (.synE [t])

/-- Look up every token in order, stopping at the first unknown one. -/
def lookupAll (c : Converter) : List Str → Except JsErr (List Nat)
  | [] => .ok []
  | t :: ts =>
      match lookupE c t with
      | .error e => .error e
      | .ok v =>
          match lookupAll c ts with
          | .error e => .error e
          | .ok vs => .ok (v :: vs)

/-- `intoDecimal`: `0` on the empty (falsy) string, otherwise tokenize,
look the tokens up and sum their positional contributions. -/
def intoDecimal (c : Converter) (s : Str) : Except JsErr Nat :=
  if s = [] then .ok 0
  else
    match splitNum c s with
    | .error e => .error e
    | .ok toks =>
        match lookupAll c toks with
        | .error e => .error e
        | .ok vs => .ok (posValue c.radix vs)

/-- A converter actually produced by one of the two constructor modes. -/
def Constructed (c : Converter) : Prop :=
  (∃ nums v, makeFromArray nums v = .ok c) ∨ (∃ s v, makeFromString s v = .ok c)

/-- Math.floor composed on the rational input, as an integer (`Math.floor(+num)`). -/
def jsFloor (q : ℚ) : Int := ⌊q⌋

/-- Truncation toward zero of a rational, the operation the claim about
`fromDecimal` coercion describes. -/
def jsTrunc (q : ℚ) : Int := if q < 0 then ⌈q⌉ else ⌊q⌋

/-- Modelled from the spec (reference definition for the refinement claim
about `intoDecimal`): greedy longest-match tokenization, trying each known
token of the length-descending-sorted list as a prefix of the remaining
input and consuming the first match; `none` when no token matches.  Fuel
bounds the recursion; `s.length` fuel is enough when tokens are
non-empty. -/
def refGreedy (ord : List Str) : Nat → Str → Option (List Str)
  | _, [] => some []
  | 0, _ :: _ => none
  | fuel + 1, ch :: rest =>
      match ord.find? (fun u => u.isPrefixOf (ch :: rest)) with
      | none => none
      | some u => (refGreedy ord fuel ((ch :: rest).drop u.length)).map (u :: ·)

/-- Modelled from the spec (reference definition): the input is tokenized
character by character when the alphabet uses single-character tokens, and
by greedy longest-match over the length-descending-sorted token list
otherwise. -/
def refTokenize (c : Converter) (s : Str) : Option (List Str) :=
  if c.numerals.all (fun t => t.length = 1) then some (s.map (fun ch => [ch]))
  else refGreedy (sortDesc c.numerals) s.length s

/-- Modelled from the spec (reference definition): tokenize, look each
token's value up, and sum `value(tokenᵢ) * radix ^ (L - 1 - i)`. -/
def refIntoDecimal (c : Converter) (s : Str) : Option Nat :=
  (refTokenize c s).bind fun toks =>
    (toks.mapM (mapGet c.numeralValues)).map (posValue c.radix)

/-- The remainders the greedy tokenizer walks through, starting from `s`:
each step consumes the first (longest-first) matching numeral. -/
inductive GreedyReach (ord : List Str) : Str → Str → Prop
  | refl (s) : GreedyReach ord s s
  | step (s u r) : firstMatch ord s = some u →
      GreedyReach ord (s.drop u.length) r → GreedyReach ord s r

/-- The input cannot be fully tokenized: in string mode some character is
absent from the alphabet; in array mode the greedy tokenizer reaches a
non-empty remainder that no known numeral matches. -/
def CantTokenize (c : Converter) (s : Str) : Prop :=
  match c.orderedNumerals with
  | none => ∃ ch ∈ s, [ch] ∉ c.numerals
  | some ord => ∃ rem, GreedyReach ord s rem ∧ rem ≠ [] ∧ firstMatch ord rem = none

/-- Residuals of `orig` reachable by stripping numerals of `tests` off the
front, at least one strip deep (the strings the recursive `validate`
closure is called on). -/
inductive Resid (tests : List Str) (orig : Str) : Str → Prop
  | base (u : Str) : u ∈ tests → u <+: orig → Resid tests orig (orig.drop u.length)
  | step (s u : Str) : Resid tests orig s → u ∈ tests → u <+: s →
      Resid tests orig (s.drop u.length)

/-- The binary alphabet `["0", "1"]`, used as the concrete instance of the
theorems with hypotheses. -/
def b2 : List Str := [['0'], ['1']]

/-- The converter the constructor builds from `["0", "1"]`. -/
def base2c : Converter :=
  { numerals := b2
    radix := 2
    numeralValues := [(['0'], 0), (['1'], 1)]
    orderedNumerals := some b2 }

/-! ### Basic facts about the association map -/

lemma mapGet_mapSet_self (m : List (Str × Nat)) (k : Str) (v : Nat) :
    mapGet (mapSet m k v) k = some v := by
  induction m with
  | nil => simp [mapSet, mapGet]
  | cons p rest ih =>
      obtain ⟨k', v'⟩ := p
      by_cases h : k' = k <;> simp [mapSet, mapGet, h, ih]

lemma mapGet_mapSet_ne (m : List (Str × Nat)) (k k' : Str) (v : Nat) (h : k' ≠ k) :
    mapGet (mapSet m k v) k' = mapGet m k' := by
  induction m with
  | nil => simp [mapSet, mapGet, Ne.symm h]
  | cons p rest ih =>
      obtain ⟨k₀, v₀⟩ := p
      by_cases h₀ : k₀ = k
      · subst h₀; simp [mapSet, mapGet, Ne.symm h]
      · simp only [mapSet, if_neg h₀]
        by_cases h₁ : k₀ = k' <;> simp [mapGet, h₁, ih]

lemma mapGet_buildMapGo_of_not_mem (ts : List Str) (k : Str) (hk : k ∉ ts) :
    ∀ m i, mapGet (buildMapGo m i ts) k = mapGet m k := by
  induction ts with
  | nil => intro m i; rfl
  | cons t ts ih =>
      intro m i
      simp only [List.mem_cons, not_or] at hk
      rw [buildMapGo, ih hk.2, mapGet_mapSet_ne _ _ _ _ hk.1]

lemma mapGet_buildMapGo_nodup (ts : List Str) (h : ts.Nodup) :
    ∀ (j : Nat) (hj : j < ts.length) (m : List (Str × Nat)) (i : Nat),
      mapGet (buildMapGo m i ts) (ts.get ⟨j, hj⟩) = some (i + j) := by
  induction ts with
  | nil => intro j hj; exact absurd hj (by simp)
  | cons t ts ih =>
      intro j hj m i
      match j with
      | 0 =>
          have ht : t ∉ ts := (List.nodup_cons.mp h).1
          show mapGet (buildMapGo (mapSet m t i) (i + 1) ts) t = some (i + 0)
          rw [mapGet_buildMapGo_of_not_mem ts t ht, mapGet_mapSet_self, Nat.add_zero]
      | j + 1 =>
          have := ih (List.nodup_cons.mp h).2 j (by simpa using Nat.lt_of_succ_lt_succ hj)
            (mapSet m t i) (i + 1)
          show mapGet (buildMapGo (mapSet m t i) (i + 1) ts) (ts.get ⟨j, _⟩) = some (i + (j + 1))
          rw [this]
          congr 1
          omega

lemma mapGet_buildMap_nodup (nums : List Str) (h : nums.Nodup)
    (j : Nat) (hj : j < nums.length) :
    mapGet (buildMap nums) (nums.get ⟨j, hj⟩) = some j := by
  simpa using mapGet_buildMapGo_nodup nums h j hj [] 0

lemma mapGet_mapSet_none_iff (m : List (Str × Nat)) (k k' : Str) (v : Nat) :
    mapGet (mapSet m k v) k' = none ↔ mapGet m k' = none ∧ k' ≠ k := by
  by_cases h : k' = k
  · subst h; simp [mapGet_mapSet_self]
  · simp [mapGet_mapSet_ne _ _ _ _ h, h]

lemma mapGet_buildMapGo_none_iff (ts : List Str) :
    ∀ m i k, mapGet (buildMapGo m i ts) k = none ↔ mapGet m k = none ∧ k ∉ ts := by
  induction ts with
  | nil => intro m i k; simp [buildMapGo]
  | cons t ts ih =>
      intro m i k
      rw [buildMapGo, ih]
      simp only [mapGet_mapSet_none_iff, List.mem_cons, not_or]
      tauto

lemma mapGet_buildMap_none_iff (nums : List Str) (k : Str) :
    mapGet (buildMap nums) k = none ↔ k ∉ nums := by
  simp [buildMap, mapGet_buildMapGo_none_iff, mapGet]

lemma mapSet_length_of_none (m : List (Str × Nat)) (k : Str) (v : Nat)
    (h : mapGet m k = none) : (mapSet m k v).length = m.length + 1 := by
  induction m with
  | nil => rfl
  | cons p rest ih =>
      obtain ⟨k₀, v₀⟩ := p
      by_cases h₀ : k₀ = k
      · simp [mapGet, h₀] at h
      · simp only [mapGet, if_neg h₀] at h
        simp [mapSet, if_neg h₀, ih h]

lemma buildMapGo_length_nodup (ts : List Str) (h : ts.Nodup) :
    ∀ m i, (∀ t ∈ ts, mapGet m t = none) →
      (buildMapGo m i ts).length = m.length + ts.length := by
  induction ts with
  | nil => intro m i _; rfl
  | cons t ts ih =>
      intro m i hm
      rw [buildMapGo, ih (List.nodup_cons.mp h).2]
      · rw [mapSet_length_of_none m t i (hm t (by simp))]
        simp [Nat.add_assoc, Nat.add_comm 1]
      · intro t' ht'
        rw [mapGet_mapSet_none_iff]
        exact ⟨hm t' (by simp [ht']), fun he => (List.nodup_cons.mp h).1 (he ▸ ht')⟩

lemma buildMap_length_nodup (nums : List Str) (h : nums.Nodup) :
    (buildMap nums).length = nums.length := by
  simpa [mapGet] using buildMapGo_length_nodup nums h [] 0 (by intro t _; rfl)

/-! ### Facts about the stable length-descending sort -/

lemma mem_insertDesc (x a : Str) (l : List Str) :
    a ∈ insertDesc x l ↔ a = x ∨ a ∈ l := by
  induction l with
  | nil => simp [insertDesc]
  | cons y ys ih =>
      by_cases h : x.length ≤ y.length <;> simp [insertDesc, h, ih] <;> tauto

lemma pairwise_insertDesc (x : Str) (l : List Str)
    (h : l.Pairwise (fun a b => b.length ≤ a.length)) :
    (insertDesc x l).Pairwise (fun a b => b.length ≤ a.length) := by
  induction l with
  | nil => simp [insertDesc]
  | cons y ys ih =>
      rw [List.pairwise_cons] at h
      by_cases hx : x.length ≤ y.length
      · rw [insertDesc, if_pos hx]
        refine List.Pairwise.cons ?_ (ih h.2)
        intro a ha
        rcases (mem_insertDesc x a ys).mp ha with rfl | ha
        · exact hx
        · exact h.1 a ha
      · rw [insertDesc, if_neg hx]
        refine List.Pairwise.cons ?_ (List.Pairwise.cons h.1 h.2)
        intro a ha
        rcases List.mem_cons.mp ha with rfl | ha
        · omega
        · exact le_trans (h.1 a ha) (by omega)

lemma mem_foldl_insertDesc (l : List Str) :
    ∀ acc a, a ∈ l.foldl (fun acc x => insertDesc x acc) acc ↔ a ∈ acc ∨ a ∈ l := by
  induction l with
  | nil => simp
  | cons x xs ih =>
      intro acc a
      simp only [List.foldl_cons, ih, mem_insertDesc, List.mem_cons]
      tauto

lemma mem_sortDesc (l : List Str) (a : Str) : a ∈ sortDesc l ↔ a ∈ l := by
  simp [sortDesc, mem_foldl_insertDesc]

lemma pairwise_foldl_insertDesc (l : List Str) :
    ∀ acc, acc.Pairwise (fun a b => b.length ≤ a.length) →
      (l.foldl (fun acc x => insertDesc x acc) acc).Pairwise
        (fun a b => b.length ≤ a.length) := by
  induction l with
  | nil => intro acc h; simpa
  | cons x xs ih => intro acc h; exact ih _ (pairwise_insertDesc x acc h)

lemma pairwise_sortDesc (l : List Str) :
    (sortDesc l).Pairwise (fun a b => b.length ≤ a.length) :=
  pairwise_foldl_insertDesc l [] (by simp)

/-! ### Unfolding the constructors -/

lemma coerceNumerals_ok (nums l : List Str) (h : coerceNumerals nums = .ok l) :
    l = nums ∧ ∀ t ∈ nums, t ≠ [] := by
  induction nums generalizing l with
  | nil =>
      simp only [coerceNumerals] at h
      cases h
      exact ⟨rfl, by simp⟩
  | cons t ts ih =>
      simp only [coerceNumerals] at h
      by_cases ht : t = []
      · simp [ht] at h
      · rw [if_neg ht] at h
        cases hts : coerceNumerals ts with
        | error e => rw [hts] at h; cases h
        | ok ts' =>
            rw [hts] at h
            cases h
            obtain ⟨rfl, hne⟩ := ih ts' hts
            refine ⟨rfl, ?_⟩
            intro u hu
            rcases List.mem_cons.mp hu with rfl | hu
            · exact ht
            · exact hne u hu

lemma coerceNumerals_all_ne (nums : List Str) (h : ∀ t ∈ nums, t ≠ []) :
    coerceNumerals nums = .ok nums := by
  induction nums with
  | nil => rfl
  | cons t ts ih =>
      rw [coerceNumerals, if_neg (h t (by simp)), ih]
      intro u hu
      exact h u (by simp [hu])

lemma makeFromArray_ok (nums : List Str) (v : Bool) (c : Converter)
    (h : makeFromArray nums v = .ok c) :
    c.numerals = nums ∧ (∀ t ∈ nums, t ≠ []) ∧
    (v = true → validateAll nums = .ok ()) ∧
    2 ≤ nums.length ∧ c.radix = nums.length ∧
    c.numeralValues = buildMap nums ∧
    c.orderedNumerals = some (sortDesc nums) := by
  unfold makeFromArray at h
  cases hco : coerceNumerals nums with
  | error e =>
      rw [hco] at h
      simp [bind, Except.bind] at h
  | ok l =>
      obtain ⟨hl, hne⟩ := coerceNumerals_ok nums l hco
      rw [hl] at hco
      rw [hco] at h
      cases v with
      | false =>
          simp only [Bool.false_eq_true, if_false, bind, Except.bind, pure, Except.pure] at h
          by_cases hlen : nums.length ≤ 1
          · rw [if_pos hlen] at h
            simp [throw, throwThe, MonadExceptOf.throw] at h
          · rw [if_neg hlen] at h
            cases h
            exact ⟨rfl, hne, by simp, by omega, rfl, rfl, rfl⟩
      | true =>
          simp only [if_true, bind, Except.bind] at h
          cases hva : validateAll nums with
          | error e =>
              rw [hva] at h
              simp at h
          | ok u =>
              cases u
              rw [hva] at h
              simp only [pure, Except.pure] at h
              by_cases hlen : nums.length ≤ 1
              · rw [if_pos hlen] at h
                simp [throw, throwThe, MonadExceptOf.throw] at h
              · rw [if_neg hlen] at h
                cases h
                exact ⟨rfl, hne, fun _ => rfl, by omega, rfl, rfl, rfl⟩

lemma makeFromString_ok (s : Str) (v : Bool) (c : Converter)
    (h : makeFromString s v = .ok c) :
    c.numerals = jsStrChars s ∧ (∀ t ∈ c.numerals, t ≠ []) ∧
    2 ≤ c.numerals.length ∧ c.radix = c.numerals.length ∧
    c.numeralValues = buildMap c.numerals ∧
    c.orderedNumerals = none := by
  unfold makeFromString at h
  by_cases hdup : v = true ∧ ¬ (jsStrChars s).Nodup
  · rw [if_pos hdup] at h
    simp [bind, Except.bind, throw, throwThe, MonadExceptOf.throw] at h
  · rw [if_neg hdup] at h
    simp only [bind, Except.bind, pure, Except.pure] at h
    by_cases hlen : (jsStrChars s).length ≤ 1
    · rw [if_pos hlen] at h
      simp [throw, throwThe, MonadExceptOf.throw] at h
    · rw [if_neg hlen] at h
      cases h
      refine ⟨rfl, ?_, by simpa using (by omega : 2 ≤ (jsStrChars s).length), rfl, rfl, rfl⟩
      intro t ht
      simp only at ht
      unfold jsStrChars at ht
      cases s with
      | nil =>
          simp only [undefStr] at ht
          fin_cases ht <;> simp
      | cons ch rest =>
          simp only [List.mem_singleton] at ht
          subst ht
          simp

/-- Invariants every constructor-produced instance satisfies. -/
lemma constructed_facts (c : Converter) (h : Constructed c) :
    c.radix = c.numerals.length ∧ 2 ≤ c.numerals.length ∧
    (∀ t ∈ c.numerals, t ≠ []) ∧ c.numeralValues = buildMap c.numerals ∧
    (∀ ord, c.orderedNumerals = some ord → ord = sortDesc c.numerals) := by
  rcases h with ⟨nums, v, hc⟩ | ⟨s, v, hc⟩
  · obtain ⟨h1, h2, _, h4, h5, h6, h7⟩ := makeFromArray_ok nums v c hc
    subst h1
    exact ⟨h5, h4, h2, h6, fun ord hord => by rw [h7] at hord; cases hord; rfl⟩
  · obtain ⟨h1, h2, h3, h4, h5, h6⟩ := makeFromString_ok s v c hc
    exact ⟨h4, h3, h2, h5, fun ord hord => by rw [h6] at hord; cases hord⟩

/-! ### Integer arithmetic of the encoding loop -/

lemma tmod_natCast (m n : Nat) : ((m : Int)).tmod (n : Int) = ((m % n : Nat) : Int) := rfl

lemma fdiv_natCast (m n : Nat) : ((m : Int)).fdiv (n : Int) = ((m / n : Nat) : Int) := by
  rw [Int.fdiv_eq_ediv _ (by positivity)]
  exact (Int.ofNat_div m n).symm

lemma fdiv_neg_of_neg (d r : Int) (hd : d < 0) (hr : 0 < r) : d.fdiv r < 0 := by
  rw [Int.fdiv_eq_ediv _ hr.le]
  exact Int.ediv_neg' hd hr

/-- With a negative `d` the division loop never reaches `0`: the model
reports divergence at every fuel. -/
lemma fromDecimalGo_neg (c : Converter) (hr : 0 < c.radix) :
    ∀ fuel (d : Int) (acc : Str), d < 0 →
      fromDecimalGo c fuel d acc = .error .noTerm := by
  have hr' : (0 : Int) < (c.radix : Int) := by exact_mod_cast hr
  intro fuel
  induction fuel with
  | zero =>
      intro d acc hd
      rw [fromDecimalGo, if_neg (by have := fdiv_neg_of_neg d _ hd hr'; omega)]
  | succ f ih =>
      intro d acc hd
      have hneg := fdiv_neg_of_neg d _ hd hr'
      rw [fromDecimalGo, if_neg (by omega)]
      exact ih _ _ hneg

lemma posValue_append_single (r : Nat) (ids : List Nat) (j : Nat) :
    posValue r (ids ++ [j]) = posValue r ids * r + j := by
  induction ids with
  | nil => simp [posValue]
  | cons d ds ih =>
      simp only [List.append_eq, List.cons_append, posValue, ih, List.length_append,
        List.length_cons, List.length_nil, pow_succ, pow_zero]
      ring

/-- For an in-range index the numeral lookup of the loop body is a genuine
numeral. -/
lemma numAt_natCast (c : Converter) (j : Nat) (hj : j < c.numerals.length) :
    numAt c (j : Int) = c.numerals.getD j [] := by
  rw [numAt, dif_pos (by simpa using hj)]
  simp [List.getD, List.getElem?_eq_getElem hj]

/-- Correctness of the division loop on a non-negative value `n`: with at
least `n` fuel it returns the concatenation of the numerals of the base-r
digits of `n`, most significant first, and those digit indices are in
range and positionally evaluate back to `n`. -/
lemma fromDecimalGo_encode (c : Converter) (hrad : c.radix = c.numerals.length)
    (h2 : 2 ≤ c.numerals.length) :
    ∀ n : ℕ, ∀ fuel, n ≤ fuel → ∀ acc, ∃ ids : List Nat,
      fromDecimalGo c fuel (n : Int) acc =
        .ok ((ids.map (fun i => c.numerals.getD i [])).flatten ++ acc) ∧
      ids ≠ [] ∧ (∀ i ∈ ids, i < c.numerals.length) ∧ posValue c.radix ids = n := by
  have hrpos : 0 < c.radix := by omega
  intro n
  induction n using Nat.strong_induction_on with
  | _ n ih =>
      intro fuel hfuel acc
      have hmod : n % c.radix < c.numerals.length := by
        rw [← hrad]; exact Nat.mod_lt _ hrpos
      have hnum : numAt c ((n : Int).tmod (c.radix : Int)) = c.numerals.getD (n % c.radix) [] := by
        rw [tmod_natCast, numAt_natCast c _ hmod]
      by_cases hdiv : n / c.radix = 0
      · refine ⟨[n % c.radix], ?_, by simp, by simpa using hmod, ?_⟩
        · have hif : ((n : Int).fdiv (c.radix : Int) = 0) := by
            rw [fdiv_natCast, hdiv]; rfl
          cases fuel with
          | zero => rw [fromDecimalGo, if_pos hif, hnum]; simp
          | succ f => rw [fromDecimalGo, if_pos hif, hnum]; simp
        · have hdm := Nat.div_add_mod n c.radix
          rw [hdiv, Nat.mul_zero, Nat.zero_add] at hdm
          simp only [posValue, List.length_nil, pow_zero, mul_one, Nat.add_zero]
          exact hdm
      · have hge : c.radix ≤ n := by
          by_contra hlt
          exact hdiv (Nat.div_eq_of_lt (by omega))
        have hlt : n / c.radix < n := Nat.div_lt_self (by omega) (by omega)
        cases fuel with
        | zero => omega
        | succ f =>
            have hfe : n / c.radix ≤ f := by
              have h1 : n / c.radix < n := hlt
              omega
            obtain ⟨ids', hgo, hne, hbound, hval⟩ :=
              ih (n / c.radix) hlt f hfe (c.numerals.getD (n % c.radix) [] ++ acc)
            have hif : ¬ ((n : Int).fdiv (c.radix : Int) = 0) := by
              rw [fdiv_natCast]
              exact_mod_cast hdiv
            refine ⟨ids' ++ [n % c.radix], ?_, by simp, ?_, ?_⟩
            · rw [fromDecimalGo, if_neg hif, hnum, fdiv_natCast, hgo]
              simp [List.flatten_append, List.append_assoc]
            · intro i hi
              rcases List.mem_append.mp hi with hi | hi
              · exact hbound i hi
              · simp only [List.mem_singleton] at hi
                subst hi
                exact hmod
            · rw [posValue_append_single, hval]
              have hdm := Nat.div_add_mod n c.radix
              rw [Nat.mul_comm] at hdm
              omega

/-! ### What a successful validation run guarantees -/

/-- Unfolding a successful `valGo` run at any test numeral of the current
level: a test that is a prefix of `str` leaves a non-empty residual on
which the recursion also succeeds, and (below the top level, where
`str ≠ orig`) `str` is not a strict prefix of any test. -/
lemma valGo_ok_mem (tests : List Str) (orig str : Str) (rem : List Str)
    (h : valGo tests orig str rem = .ok ()) (u : Str) (hu : u ∈ rem) :
    (u <+: str → str.drop u.length ≠ [] ∧
      valGo tests orig (str.drop u.length) tests = .ok ()) ∧
    (¬ u <+: str → str ≠ orig → ¬ str <+: u) := by
  induction rem with
  | nil => cases hu
  | cons t rest ih =>
      rw [valGo] at h
      by_cases hpre : t <+: str
      · rw [if_pos hpre] at h
        by_cases hsub : str.drop t.length = []
        · rw [if_pos hsub] at h
          cases h
        · rw [if_neg hsub] at h
          by_cases ht : t = []
          · subst ht
            rw [dif_neg (by simp)] at h
            cases h
          · have hlt : (str.drop t.length).length < str.length := by
              have h1 : 0 < t.length := List.length_pos.mpr ht
              have h2 : t.length ≤ str.length := hpre.length_le
              simp only [List.length_drop]
              omega
            rw [dif_pos hlt] at h
            cases hrec : valGo tests orig (str.drop t.length) tests with
            | error e => rw [hrec] at h; cases h
            | ok u' =>
                cases u'
                rw [hrec] at h
                rcases List.mem_cons.mp hu with rfl | hu'
                · exact ⟨fun _ => ⟨hsub, hrec⟩, fun hnp _ => absurd hpre hnp⟩
                · exact ih h hu'
      · rw [if_neg hpre] at h
        by_cases hcond : str ≠ orig ∧ str <+: t
        · rw [if_pos hcond] at h
          cases h
        · rw [if_neg hcond] at h
          rcases List.mem_cons.mp hu with rfl | hu'
          · refine ⟨fun hp => absurd hp hpre, fun _ hso hsp => ?_⟩
            exact hcond ⟨hso, hsp⟩
          · exact ih h hu'

/-- A successful `valAllGo pre post` run validated, for every decomposition
`post = pre2 ++ e :: post2`, the numeral `e` against all the others. -/
lemma valAllGo_ok_split (post : List Str) :
    ∀ pre, valAllGo pre post = .ok () →
      ∀ pre2 e post2, post = pre2 ++ e :: post2 →
        valGo ((pre ++ pre2) ++ post2) e e ((pre ++ pre2) ++ post2) = .ok () := by
  induction post with
  | nil =>
      intro pre _ pre2 e post2 hsplit
      exact absurd hsplit (by simp)
  | cons x rest ih =>
      intro pre h pre2 e post2 hsplit
      rw [valAllGo] at h
      cases hx : valGo (pre ++ rest) x x (pre ++ rest) with
      | error e' => rw [hx] at h; cases h
      | ok u =>
          cases u
          rw [hx] at h
          cases pre2 with
          | nil =>
              simp only [List.nil_append, List.cons.injEq] at hsplit
              obtain ⟨rfl, rfl⟩ := hsplit
              simpa using hx
          | cons p pre2' =>
              simp only [List.cons_append, List.cons.injEq] at hsplit
              obtain ⟨rfl, hsplit⟩ := hsplit
              have := ih (pre ++ [x]) h pre2' e post2 hsplit
              simpa [List.append_assoc] using this

/-- A successful `#validateNumerals` run validated each numeral against
the list with that occurrence removed. -/
lemma validateAll_ok_split (nums : List Str) (h : validateAll nums = .ok ())
    (pre : List Str) (e : Str) (post : List Str) (hsplit : nums = pre ++ e :: post) :
    valGo (pre ++ post) e e (pre ++ post) = .ok () := by
  simpa using valAllGo_ok_split nums [] h pre e post hsplit

/-- Validation rejects duplicated numerals, so a successful run implies the
numeral list has no duplicates. -/
lemma valAllGo_nodup (post : List Str) :
    ∀ pre, valAllGo pre post = .ok () →
      post.Nodup ∧ ∀ e ∈ post, e ∉ pre := by
  induction post with
  | nil => intro pre _; simp
  | cons x rest ih =>
      intro pre h
      rw [valAllGo] at h
      cases hx : valGo (pre ++ rest) x x (pre ++ rest) with
      | error e' => rw [hx] at h; cases h
      | ok u =>
          cases u
          rw [hx] at h
          obtain ⟨hnd, hnin⟩ := ih (pre ++ [x]) h
          have hxrest : x ∉ rest := by
            intro hxr
            have := hnin x hxr
            simp at this
          have hxpre : x ∉ pre := by
            intro hxp
            have hmem : x ∈ pre ++ rest := by simp [hxp]
            have := (valGo_ok_mem _ _ _ _ hx x hmem).1 (List.prefix_refl x)
            exact this.1 (List.drop_length x)
          refine ⟨List.nodup_cons.mpr ⟨hxrest, hnd⟩, ?_⟩
          intro e he
          rcases List.mem_cons.mp he with rfl | he'
          · exact hxpre
          · intro hep
            exact hnin e he' (by simp [hep])

lemma validateAll_nodup (nums : List Str) (h : validateAll nums = .ok ()) :
    nums.Nodup :=
  (valAllGo_nodup nums [] h).1

/-- Every residual the validator reaches is non-empty and itself passes a
full level of tests. -/
lemma resid_ok (tests : List Str) (orig : Str)
    (hok : valGo tests orig orig tests = .ok ()) (s : Str)
    (hs : Resid tests orig s) :
    s ≠ [] ∧ valGo tests orig s tests = .ok () := by
  induction hs with
  | base u hu hpre => exact (valGo_ok_mem tests orig orig tests hok u hu).1 hpre
  | step s u hs hu hpre ih =>
      exact (valGo_ok_mem tests orig s tests ih.2 u hu).1 hpre

/-- A residual of `orig` decomposes `orig` as at least one test numeral
followed by the residual. -/
lemma resid_decomp (tests : List Str) (orig s : Str) (hs : Resid tests orig s) :
    ∃ us, us ≠ [] ∧ (∀ u ∈ us, u ∈ tests) ∧ orig = us.flatten ++ s := by
  induction hs with
  | base u hu hpre =>
      refine ⟨[u], by simp, by simp [hu], ?_⟩
      rw [List.flatten_cons, List.flatten_nil, List.append_nil]
      exact (List.prefix_iff_eq_append.mp hpre).symm
  | step s u hs hu hpre ih =>
      obtain ⟨us, hne, hmem, horig⟩ := ih
      refine ⟨us ++ [u], by simp, ?_, ?_⟩
      · intro w hw
        rcases List.mem_append.mp hw with hw | hw
        · exact hmem w hw
        · simp only [List.mem_singleton] at hw
          subst hw
          exact hu
      · rw [horig, List.flatten_append, List.flatten_cons, List.flatten_nil,
          List.append_nil, List.append_assoc]
        congr 1
        exact (List.prefix_iff_eq_append.mp hpre).symm

/-- Residuals are strictly shorter than `orig` (tests are non-empty). -/
lemma resid_length_lt (tests : List Str) (orig : Str)
    (hne : ∀ u ∈ tests, u ≠ []) (s : Str) (hs : Resid tests orig s) :
    s.length < orig.length := by
  induction hs with
  | base u hu hpre =>
      have h1 : 0 < u.length := List.length_pos.mpr (hne u hu)
      have h2 : u.length ≤ orig.length := hpre.length_le
      simp only [List.length_drop]
      omega
  | step s u hs hu hpre ih =>
      have h1 : 0 < u.length := List.length_pos.mpr (hne u hu)
      simp only [List.length_drop]
      omega

/-- A residual is never a prefix (strict or full) of a test numeral. -/
lemma resid_not_prefix_test (tests : List Str) (orig : Str)
    (hne : ∀ u ∈ tests, u ≠ []) (hok : valGo tests orig orig tests = .ok ())
    (s u : Str) (hs : Resid tests orig s) (hu : u ∈ tests) (hsu : s <+: u) :
    False := by
  obtain ⟨hsne, hsok⟩ := resid_ok tests orig hok s hs
  by_cases heq : s = u
  · subst heq
    have := (valGo_ok_mem tests orig s tests hsok s hu).1 (List.prefix_refl s)
    exact this.1 (List.drop_length s)
  · have hnup : ¬ u <+: s := by
      intro hup
      exact heq (hsu.eq_of_length (le_antisymm hsu.length_le hup.length_le))
    have hso : s ≠ orig := by
      intro he
      have := resid_length_lt tests orig hne s hs
      rw [he] at this
      omega
    exact (valGo_ok_mem tests orig s tests hsok u hu).2 hnup hso hsu

/-- Walking a residual through a concatenation of test numerals: either it
dies against one of them (impossible), or a smaller residual survives as a
prefix of the tail `z`. -/
lemma resid_walk (tests : List Str) (orig : Str)
    (hne : ∀ u ∈ tests, u ≠ []) (hok : valGo tests orig orig tests = .ok ()) :
    ∀ L : List Str, (∀ u ∈ L, u ∈ tests) → ∀ s z, Resid tests orig s →
      s <+: L.flatten ++ z →
      ∃ s2, Resid tests orig s2 ∧ s2 <+: z ∧ s2.length ≤ s.length := by
  intro L
  induction L with
  | nil =>
      intro _ s z hs hpre
      exact ⟨s, hs, by simpa using hpre, le_refl _⟩
  | cons u L ih =>
      intro hL s z hs hpre
      have hu : u ∈ tests := hL u (by simp)
      obtain ⟨hsne, hsok⟩ := resid_ok tests orig hok s hs
      rw [List.flatten_cons, List.append_assoc] at hpre
      by_cases hlen : s.length ≤ u.length
      · exact absurd (List.prefix_of_prefix_length_le hpre (List.prefix_append u _) hlen)
          (fun hsu => resid_not_prefix_test tests orig hne hok s u hs hu hsu)
      · push_neg at hlen
        have hus : u <+: s :=
          List.prefix_of_prefix_length_le (List.prefix_append u _) hpre hlen.le
        have hres2 : Resid tests orig (s.drop u.length) := Resid.step s u hs hu hus
        have hpre2 : s.drop u.length <+: L.flatten ++ z := by
          have heq : u ++ s.drop u.length = s := List.prefix_iff_eq_append.mp hus
          rw [← heq] at hpre
          exact (List.prefix_append_right_inj u).mp hpre
        obtain ⟨s2, h1, h2, h3⟩ := ih (fun w hw => hL w (by simp [hw]))
          (s.drop u.length) z hres2 hpre2
        refine ⟨s2, h1, h2, le_trans h3 ?_⟩
        simp only [List.length_drop]
        omega

/-- A residual is never a prefix of `orig` itself. -/
lemma resid_not_prefix_orig (tests : List Str) (orig : Str)
    (hne : ∀ u ∈ tests, u ≠ []) (hok : valGo tests orig orig tests = .ok ()) :
    ∀ s, Resid tests orig s → ¬ s <+: orig := by
  suffices H : ∀ n s, s.length ≤ n → Resid tests orig s → ¬ s <+: orig by
    intro s hs
    exact H s.length s (le_refl _) hs
  intro n
  induction n with
  | zero =>
      intro s hlen hs _
      have := (resid_ok tests orig hok s hs).1
      have := List.length_pos.mpr this
      omega
  | succ n ih =>
      intro s hlen hs hpre
      obtain ⟨us, husne, husmem, horig⟩ := resid_decomp tests orig s hs
      cases us with
      | nil => exact husne rfl
      | cons u us' =>
          have hu : u ∈ tests := husmem u (by simp)
          have hpre' : s <+: u ++ (us'.flatten ++ s) := by
            rw [List.flatten_cons, List.append_assoc] at horig
            rw [← horig]
            exact hpre
          by_cases hlen2 : s.length ≤ u.length
          · exact resid_not_prefix_test tests orig hne hok s u hs hu
              (List.prefix_of_prefix_length_le hpre' (List.prefix_append u _) hlen2)
          · push_neg at hlen2
            have hus : u <+: s :=
              List.prefix_of_prefix_length_le (List.prefix_append u _) hpre' hlen2.le
            have hres2 : Resid tests orig (s.drop u.length) := Resid.step s u hs hu hus
            have hpre2 : s.drop u.length <+: us'.flatten ++ s := by
              have heq : u ++ s.drop u.length = s := List.prefix_iff_eq_append.mp hus
              have hpre'' : u ++ s.drop u.length <+: u ++ (us'.flatten ++ s) := by
                rw [heq]
                exact hpre'
              exact (List.prefix_append_right_inj u).mp hpre''
            obtain ⟨s2, h1, h2, h3⟩ := resid_walk tests orig hne hok us'
              (fun w hw => husmem w (by simp [hw])) (s.drop u.length) s hres2 hpre2
            have hlt : s2.length < s.length := by
              have h4 : 0 < u.length := List.length_pos.mpr (hne u hu)
              have h5 : (s.drop u.length).length < s.length := by
                simp only [List.length_drop]
                omega
              omega
            exact ih s2 (by omega) h1 (h2.trans hpre)

/-- A residual is never a prefix of any concatenation of numerals (tests
or `orig` itself). -/
lemma resid_not_prefix_flatten (tests : List Str) (orig : Str)
    (hne : ∀ u ∈ tests, u ≠ []) (horigne : orig ≠ [])
    (hok : valGo tests orig orig tests = .ok ()) :
    ∀ L : List Str, (∀ u ∈ L, u ∈ tests ∨ u = orig) → ∀ s, Resid tests orig s →
      ¬ s <+: L.flatten := by
  intro L
  induction L with
  | nil =>
      intro _ s hs hpre
      have h1 := (resid_ok tests orig hok s hs).1
      simp only [List.flatten_nil, List.prefix_nil] at hpre
      exact h1 hpre
  | cons u L ih =>
      intro hL s hs hpre
      rw [List.flatten_cons] at hpre
      rcases hL u (by simp) with hu | hequ
      · by_cases hlen : s.length ≤ u.length
        · exact resid_not_prefix_test tests orig hne hok s u hs hu
            (List.prefix_of_prefix_length_le hpre (List.prefix_append u _) hlen)
        · push_neg at hlen
          have hus : u <+: s :=
            List.prefix_of_prefix_length_le (List.prefix_append u _) hpre hlen.le
          have hres2 : Resid tests orig (s.drop u.length) := Resid.step s u hs hu hus
          have hpre2 : s.drop u.length <+: L.flatten := by
            have heq : u ++ s.drop u.length = s := List.prefix_iff_eq_append.mp hus
            rw [← heq] at hpre
            exact (List.prefix_append_right_inj u).mp hpre
          exact ih (fun w hw => hL w (by simp [hw])) (s.drop u.length) hres2 hpre2
      · subst hequ
        have hlt : s.length ≤ u.length :=
          le_of_lt (resid_length_lt tests u hne s hs)
        exact resid_not_prefix_orig tests u hne hok s hs
          (List.prefix_of_prefix_length_le hpre (List.prefix_append u _) hlt)

/-- The central consequence of a successful validation: in a concatenation
that starts with numeral `y`, no numeral `z` longer than `y` can match at
the start, and the only matching numeral of `y`'s length is `y` itself. -/
lemma validated_no_long_match (nums : List Str) (hne : ∀ u ∈ nums, u ≠ [])
    (hval : validateAll nums = .ok ()) (y z : Str) (hy : y ∈ nums) (hz : z ∈ nums)
    (rest : List Str) (hrest : ∀ u ∈ rest, u ∈ nums)
    (hpre : z <+: y ++ rest.flatten) :
    z.length ≤ y.length ∧ (z.length = y.length → z = y) := by
  have hzy : z.length ≤ y.length := by
    by_contra hgt
    push_neg at hgt
    have hyz : y <+: z :=
      List.prefix_of_prefix_length_le (List.prefix_append y _) hpre hgt.le
    have hyne : y ≠ z := by
      intro he
      rw [he] at hgt
      omega
    obtain ⟨pre, post, hsplit⟩ := List.append_of_mem hz
    have hok : valGo (pre ++ post) z z (pre ++ post) = .ok () :=
      validateAll_ok_split nums hval pre z post hsplit
    have htne : ∀ u ∈ pre ++ post, u ≠ [] := by
      intro u hu
      refine hne u ?_
      rw [hsplit]
      rcases List.mem_append.mp hu with hu | hu
      · exact List.mem_append.mpr (Or.inl hu)
      · exact List.mem_append.mpr (Or.inr (by simp [hu]))
    have hymem : y ∈ pre ++ post := by
      have hymem' : y ∈ pre ++ z :: post := hsplit ▸ hy
      rcases List.mem_append.mp hymem' with hu | hu
      · exact List.mem_append.mpr (Or.inl hu)
      · rcases List.mem_cons.mp hu with he | hu
        · exact absurd he hyne
        · exact List.mem_append.mpr (Or.inr hu)
    have hres : Resid (pre ++ post) z (z.drop y.length) := Resid.base y hymem hyz
    have hs0 : z.drop y.length <+: rest.flatten := by
      have heq : y ++ z.drop y.length = z := List.prefix_iff_eq_append.mp hyz
      have hpre' : y ++ z.drop y.length <+: y ++ rest.flatten := by
        rw [heq]
        exact hpre
      exact (List.prefix_append_right_inj y).mp hpre'
    have hrest' : ∀ u ∈ rest, u ∈ pre ++ post ∨ u = z := by
      intro u hu
      by_cases he : u = z
      · exact Or.inr he
      · left
        have hu' : u ∈ pre ++ z :: post := hsplit ▸ hrest u hu
        rcases List.mem_append.mp hu' with h1 | h1
        · exact List.mem_append.mpr (Or.inl h1)
        · rcases List.mem_cons.mp h1 with h2 | h2
          · exact absurd h2 he
          · exact List.mem_append.mpr (Or.inr h2)
    exact resid_not_prefix_flatten (pre ++ post) z htne (hne z hz) hok rest hrest'
      (z.drop y.length) hres hs0
  refine ⟨hzy, fun heq => ?_⟩
  exact (List.prefix_of_prefix_length_le hpre (List.prefix_append y _) hzy).eq_of_length heq

/-- On a string starting with numeral `y` whose matches are all no longer
than `y` (and equal to `y` at `y`'s length), the longest-first scan finds
exactly `y`. -/
lemma firstMatch_sorted (ord : List Str)
    (hsort : ord.Pairwise (fun a b => b.length ≤ a.length))
    (y : Str) (hy : y ∈ ord) (s : Str) (hys : y <+: s)
    (hmax : ∀ z ∈ ord, z <+: s → z.length ≤ y.length ∧ (z.length = y.length → z = y)) :
    firstMatch ord s = some y := by
  induction ord with
  | nil => cases hy
  | cons u rest ih =>
      rw [List.pairwise_cons] at hsort
      by_cases hu : u <+: s
      · have hzu := hmax u (by simp) hu
        have huy : u = y := by
          rcases List.mem_cons.mp hy with he | hy'
          · exact he.symm
          · exact hzu.2 (le_antisymm hzu.1 (hsort.1 y hy'))
        subst huy
        rw [firstMatch, List.find?_cons]
        have : u.isPrefixOf s = true := List.isPrefixOf_iff_prefix.mpr hu
        simp [this]
      · have hy' : y ∈ rest := by
          rcases List.mem_cons.mp hy with he | hy'
          · subst he
            exact absurd hys hu
          · exact hy'
        have : u.isPrefixOf s = false := by
          rw [Bool.eq_false_iff]
          intro hb
          exact hu (List.isPrefixOf_iff_prefix.mp hb)
        rw [firstMatch, List.find?_cons, this]
        exact ih hsort.2 hy' (fun z hz => hmax z (by simp [hz]))

/-- For a validated alphabet the greedy tokenizer exactly inverts
concatenation of numerals. -/
lemma greedy_flatten (nums : List Str) (hne : ∀ u ∈ nums, u ≠ [])
    (hval : validateAll nums = .ok ()) :
    ∀ toks : List Str, (∀ t ∈ toks, t ∈ nums) → ∀ fuel, toks.flatten.length ≤ fuel →
      greedyGo (sortDesc nums) fuel toks.flatten = .ok toks := by
  intro toks
  induction toks with
  | nil =>
      intro _ fuel _
      rw [List.flatten_nil]
      cases fuel <;> rfl
  | cons y toks ih =>
      intro hmem fuel hfuel
      have hy : y ∈ nums := hmem y (by simp)
      have hyne : y ≠ [] := hne y hy
      have hmem' : ∀ t ∈ toks, t ∈ nums := fun t ht => hmem t (by simp [ht])
      obtain ⟨ch, ytl, rfl⟩ : ∃ ch ytl, y = ch :: ytl := by
        cases y with
        | nil => exact absurd rfl hyne
        | cons a b => exact ⟨a, b, rfl⟩
      rw [List.flatten_cons, List.cons_append]
      cases fuel with
      | zero =>
          exfalso
          rw [List.flatten_cons] at hfuel
          simp at hfuel
      | succ f =>
          have hfm : firstMatch (sortDesc nums) (ch :: (ytl ++ toks.flatten)) =
              some (ch :: ytl) := by
            apply firstMatch_sorted _ (pairwise_sortDesc nums) _ ((mem_sortDesc _ _).mpr hy)
            · rw [← List.cons_append]
              exact List.prefix_append _ _
            · intro z hz hzp
              exact validated_no_long_match nums hne hval (ch :: ytl) z hy
                ((mem_sortDesc _ _).mp hz) toks hmem' hzp
          have hdrop : (ch :: (ytl ++ toks.flatten)).drop (ch :: ytl).length =
              toks.flatten := by
            rw [← List.cons_append, List.drop_left]
          have hfb : toks.flatten.length ≤ f := by
            rw [List.flatten_cons] at hfuel
            simp only [List.length_append, List.length_cons] at hfuel
            omega
          rw [greedyGo, hfm]
          simp only [hdrop, ih hmem' f hfb]

/-- Looking the numerals of a list of in-range indices back up yields the
indices (distinct numerals). -/
lemma lookupAll_map_get (c : Converter) (hmv : c.numeralValues = buildMap c.numerals)
    (hnd : c.numerals.Nodup) :
    ∀ ids : List Nat, (∀ i ∈ ids, i < c.numerals.length) →
      lookupAll c (ids.map (fun i => c.numerals.getD i [])) = .ok ids := by
  intro ids
  induction ids with
  | nil => intro _; rfl
  | cons i ids ih =>
      intro hb
      have hi : i < c.numerals.length := hb i (by simp)
      have hget : mapGet c.numeralValues (c.numerals.getD i []) = some i := by
        rw [hmv, List.getD_eq_getElem _ _ hi]
        exact mapGet_buildMap_nodup c.numerals hnd i hi
      have hlk : lookupE c (c.numerals.getD i []) = .ok i := by
        rw [lookupE, hget]
      rw [List.map_cons, lookupAll, hlk, ih (fun j hj => hb j (by simp [hj]))]

/-- The round-trip theorem for validated array alphabets. -/
lemma validated_roundtrip (nums : List Str) (c : Converter)
    (hc : makeFromArray nums true = .ok c) (n : Nat) :
    ∃ s, fromDecimal c (n : ℚ) = .ok s ∧ intoDecimal c s = .ok n := by
  obtain ⟨hnums, hne, hval, h2, hrad, hmv, hord⟩ := makeFromArray_ok nums true c hc
  rw [← hnums] at hne hval h2 hrad hmv hord
  have hval' := hval rfl
  obtain ⟨ids, hgo, hidne, hbound, hpos⟩ :=
    fromDecimalGo_encode c hrad h2 n n (by simp) []
  refine ⟨(ids.map (fun i => c.numerals.getD i [])).flatten, ?_, ?_⟩
  · rw [fromDecimal]
    simp only [Int.floor_natCast, Int.natAbs_ofNat]
    rw [hgo, List.append_nil]
  · set toks := ids.map (fun i => c.numerals.getD i []) with htoks
    have hmemtoks : ∀ t ∈ toks, t ∈ c.numerals := by
      intro t ht
      rw [htoks] at ht
      obtain ⟨i, hi, rfl⟩ := List.mem_map.mp ht
      rw [List.getD_eq_getElem _ _ (hbound i hi)]
      exact List.getElem_mem _
    have htne : toks.flatten ≠ [] := by
      intro hfl
      cases ids with
      | nil => exact hidne rfl
      | cons i ids' =>
          rw [htoks] at hfl
          simp only [List.map_cons, List.flatten_cons, List.append_eq_nil] at hfl
          have hi : i < c.numerals.length := hbound i (by simp)
          have hgetne : c.numerals.getD i [] ≠ [] := by
            rw [List.getD_eq_getElem _ _ hi]
            exact hne _ (List.getElem_mem _)
          exact hgetne hfl.1
    have hsplit : splitNum c toks.flatten = .ok toks := by
      rw [splitNum, hord]
      exact greedy_flatten c.numerals hne hval' toks hmemtoks _ (le_refl _)
    have hnd := validateAll_nodup _ hval'
    rw [intoDecimal, if_neg htne, hsplit]
    simp only [htoks, lookupAll_map_get c hmv hnd ids hbound, hpos]

/-! ### Termination and error characterization of decoding -/

lemma firstMatch_some (ord : List Str) (s u : Str) (h : firstMatch ord s = some u) :
    u ∈ ord ∧ u <+: s :=
  ⟨List.mem_of_find?_eq_some h,
   List.isPrefixOf_iff_prefix.mp (List.find?_eq_some.mp h).1⟩

/-- With non-empty numerals, `s.length` fuel never runs out: the model
never reports divergence of the greedy loop. -/
lemma greedyGo_not_noTerm (ord : List Str) (hne : ∀ u ∈ ord, u ≠ []) :
    ∀ fuel (s : Str), s.length ≤ fuel → greedyGo ord fuel s ≠ .error .noTerm := by
  intro fuel
  induction fuel with
  | zero =>
      intro s hlen
      have : s = [] := by
        cases s with
        | nil => rfl
        | cons a b => simp at hlen
      subst this
      simp [greedyGo]
  | succ f ih =>
      intro s hlen
      cases s with
      | nil => simp [greedyGo]
      | cons ch rest =>
          rw [greedyGo]
          cases hfm : firstMatch ord (ch :: rest) with
          | none => simp
          | some u =>
              obtain ⟨hmem, hpre⟩ := firstMatch_some ord _ u hfm
              have hlen2 : ((ch :: rest).drop u.length).length ≤ f := by
                have h1 : 0 < u.length := List.length_pos.mpr (hne u hmem)
                simp only [List.length_drop, List.length_cons] at *
                omega
              cases hrec : greedyGo ord f ((ch :: rest).drop u.length) with
              | error e =>
                  have := ih _ hlen2
                  rw [hrec] at this
                  simp only [hrec]
                  intro hcontra
                  cases hcontra
                  exact this rfl
              | ok toks => simp [hrec]

/-- Every token the greedy tokenizer returns is a known numeral. -/
lemma greedyGo_ok_mem (ord : List Str) :
    ∀ fuel (s : Str) toks, greedyGo ord fuel s = .ok toks → ∀ t ∈ toks, t ∈ ord := by
  intro fuel
  induction fuel with
  | zero =>
      intro s toks h t ht
      cases s with
      | nil =>
          rw [greedyGo] at h
          cases h
          cases ht
      | cons a b => rw [greedyGo] at h; cases h
  | succ f ih =>
      intro s toks h t ht
      cases s with
      | nil =>
          rw [greedyGo] at h
          cases h
          cases ht
      | cons ch rest =>
          rw [greedyGo] at h
          split at h
          · cases h
          · rename_i u hfm
            split at h
            · cases h
            · rename_i toks' hrec
              cases h
              rcases List.mem_cons.mp ht with rfl | ht'
              · exact (firstMatch_some ord _ t hfm).1
              · exact ih _ toks' hrec t ht'

/-- A greedy-loop failure is exactly a reachable non-empty remainder that
no numeral matches, and the error names that remainder. -/
lemma greedyGo_error_iff (ord : List Str) (hne : ∀ u ∈ ord, u ≠ []) :
    ∀ fuel (s : Str), s.length ≤ fuel →
      ((∃ e, greedyGo ord fuel s = .error e) ↔
        ∃ rem, GreedyReach ord s rem ∧ rem ≠ [] ∧ firstMatch ord rem = none) := by
  have hback : ∀ (s rem : Str), GreedyReach ord s rem → rem ≠ [] →
      firstMatch ord rem = none → ∀ fuel, s.length ≤ fuel →
        ∃ e, greedyGo ord fuel s = .error e := by
    intro s rem hreach
    induction hreach with
    | refl s =>
        intro hrne hfm fuel hlen
        cases s with
        | nil => exact absurd rfl hrne
        | cons ch rest =>
            cases fuel with
            | zero => simp at hlen
            | succ f =>
                rw [greedyGo, hfm]
                exact ⟨_, rfl⟩
    | step s u r hfm hreach ih =>
        intro hrne hfmr fuel hlen
        cases s with
        | nil =>
            obtain ⟨hmem, hpre⟩ := firstMatch_some ord _ u hfm
            have := hne u hmem
            have : u = [] := List.prefix_nil.mp hpre
            simp_all
        | cons ch rest =>
            cases fuel with
            | zero => simp at hlen
            | succ f =>
                obtain ⟨hmem, hpre⟩ := firstMatch_some ord _ u hfm
                have hlen2 : ((ch :: rest).drop u.length).length ≤ f := by
                  have h1 : 0 < u.length := List.length_pos.mpr (hne u hmem)
                  simp only [List.length_drop, List.length_cons] at *
                  omega
                obtain ⟨e, he⟩ := ih hrne hfmr f hlen2
                rw [greedyGo, hfm]
                exact ⟨e, by simp only [he]⟩
  intro fuel
  induction fuel with
  | zero =>
      intro s hlen
      have hs : s = [] := by
        cases s with
        | nil => rfl
        | cons a b => simp at hlen
      subst hs
      constructor
      · rintro ⟨e, he⟩
        rw [greedyGo] at he
        cases he
      · rintro ⟨rem, hreach, hrne, hfm⟩
        exact absurd rfl (by
          cases hreach with
          | refl => exact hrne
          | step s u r hfm' hreach' =>
              obtain ⟨hmem, hpre⟩ := firstMatch_some ord _ u hfm'
              exact absurd (List.prefix_nil.mp hpre) (hne u hmem))
  | succ f ih =>
      intro s hlen
      constructor
      · rintro ⟨e, he⟩
        cases s with
        | nil => rw [greedyGo] at he; cases he
        | cons ch rest =>
            rw [greedyGo] at he
            split at he
            · rename_i hfm
              exact ⟨ch :: rest, GreedyReach.refl _, by simp, hfm⟩
            · rename_i u hfm
              obtain ⟨hmem, hpre⟩ := firstMatch_some ord _ u hfm
              have hlen2 : ((ch :: rest).drop u.length).length ≤ f := by
                have h1 : 0 < u.length := List.length_pos.mpr (hne u hmem)
                simp only [List.length_drop, List.length_cons] at *
                omega
              split at he
              · rename_i e' hrec
                obtain ⟨rem, h1, h2, h3⟩ := (ih _ hlen2).mp ⟨e', hrec⟩
                exact ⟨rem, GreedyReach.step _ u rem hfm h1, h2, h3⟩
              · cases he
      · rintro ⟨rem, hreach, hrne, hfm⟩
        exact hback s rem hreach hrne hfm (f + 1) hlen

/-- A successful lookup pass means every token is a known key. -/
lemma lookupAll_ok_mem (c : Converter) :
    ∀ toks vs, lookupAll c toks = .ok vs →
      ∀ t ∈ toks, ∃ v, mapGet c.numeralValues t = some v := by
  intro toks
  induction toks with
  | nil => intro vs _ t ht; cases ht
  | cons t' ts ih =>
      intro vs h t ht
      rw [lookupAll] at h
      cases hlk : lookupE c t' with
      | error e => rw [hlk] at h; cases h
      | ok v =>
          rw [hlk] at h
          cases hrest : lookupAll c ts with
          | error e => rw [hrest] at h; cases h
          | ok vs' =>
              rcases List.mem_cons.mp ht with rfl | ht'
              · rw [lookupE] at hlk
                cases hget : mapGet c.numeralValues t with
                | none => rw [hget] at hlk; cases hlk
                | some v' => exact ⟨v', rfl⟩

              · exact ih vs' hrest t ht'

/-- Lookup failures are exactly a token with no value, and the error names
the first such token. -/
lemma lookupAll_error_iff (c : Converter) :
    ∀ toks, (∃ e, lookupAll c toks = .error e) ↔
      ∃ t ∈ toks, mapGet c.numeralValues t = none := by
  intro toks
  induction toks with
  | nil =>
      constructor
      · rintro ⟨e, he⟩; rw [lookupAll] at he; cases he
      · rintro ⟨t, ht, _⟩; cases ht
  | cons t' ts ih =>
      constructor
      · rintro ⟨e, he⟩
        rw [lookupAll] at he
        cases hlk : lookupE c t' with
        | error e' =>
            rw [lookupE] at hlk
            cases hget : mapGet c.numeralValues t' with
            | none => exact ⟨t', by simp, hget⟩
            | some v => rw [hget] at hlk; cases hlk
        | ok v =>
            rw [hlk] at he
            cases hrest : lookupAll c ts with
            | error e' =>
                obtain ⟨t, ht, hnone⟩ := ih.mp ⟨e', hrest⟩
                exact ⟨t, by simp [ht], hnone⟩
            | ok vs => rw [hrest] at he; cases he
      · rintro ⟨t, ht, hnone⟩
        rw [lookupAll]
        cases hlk : lookupE c t' with
        | error e' => exact ⟨e', rfl⟩
        | ok v =>
            rcases List.mem_cons.mp ht with rfl | ht'
            · rw [lookupE, hnone] at hlk
              cases hlk
            · obtain ⟨e', he'⟩ := ih.mpr ⟨t, ht', hnone⟩
              rw [he']
              exact ⟨e', rfl⟩

/-- Greedy-loop errors within fuel are `SyntaxError`s naming the unmatched
remainder. -/
lemma greedyGo_error_syn (ord : List Str) (hne : ∀ u ∈ ord, u ≠ []) :
    ∀ fuel (s : Str), s.length ≤ fuel → ∀ e, greedyGo ord fuel s = .error e →
      ∃ rem, e = .synE [rem] := by
  intro fuel
  induction fuel with
  | zero =>
      intro s hlen e he
      have hs : s = [] := by
        cases s with
        | nil => rfl
        | cons a b => simp at hlen
      subst hs
      rw [greedyGo] at he
      cases he
  | succ f ih =>
      intro s hlen e he
      cases s with
      | nil => rw [greedyGo] at he; cases he
      | cons ch rest =>
          rw [greedyGo] at he
          split at he
          · cases he
            exact ⟨ch :: rest, rfl⟩
          · rename_i u hfm
            obtain ⟨hmem, hpre⟩ := firstMatch_some ord _ u hfm
            have hlen2 : ((ch :: rest).drop u.length).length ≤ f := by
              have h1 : 0 < u.length := List.length_pos.mpr (hne u hmem)
              simp only [List.length_drop, List.length_cons] at *
              omega
            split at he
            · rename_i e' hrec
              injection he with he2
              subst he2
              exact ih _ hlen2 _ hrec
            · cases he

/-- Lookup errors are `SyntaxError`s naming the unknown token. -/
lemma lookupAll_error_syn (c : Converter) :
    ∀ toks e, lookupAll c toks = .error e → ∃ t, e = .synE [t] := by
  intro toks
  induction toks with
  | nil => intro e he; rw [lookupAll] at he; cases he
  | cons t' ts ih =>
      intro e he
      rw [lookupAll] at he
      split at he
      · rename_i e' hlk
        injection he with he2
        subst he2
        rw [lookupE] at hlk
        split at hlk
        · cases hlk
        · injection hlk with he3
          subst he3
          exact ⟨t', rfl⟩
      · rename_i v hlk
        split at he
        · rename_i e' hrest
          injection he with he2
          subst he2
          exact ih _ hrest
        · cases he

/-- Unfolding `intoDecimal` in string (single-character) mode. -/
lemma intoDecimal_none_mode (c : Converter) (hord : c.orderedNumerals = none)
    (s : Str) (hs : s ≠ []) :
    intoDecimal c s =
      (match lookupAll c (s.map (fun ch => [ch])) with
       | .error e => .error e
       | .ok vs => .ok (posValue c.radix vs)) := by
  rw [intoDecimal, if_neg hs, splitNum, hord]

/-- Unfolding `intoDecimal` in array (greedy) mode. -/
lemma intoDecimal_some_mode (c : Converter) (ord : List Str)
    (hord : c.orderedNumerals = some ord) (s : Str) (hs : s ≠ []) :
    intoDecimal c s =
      (match greedyGo ord s.length s with
       | .error e => .error e
       | .ok toks =>
           match lookupAll c toks with
           | .error e => .error e
           | .ok vs => .ok (posValue c.radix vs)) := by
  rw [intoDecimal, if_neg hs, splitNum, hord]

/-- A numeral always has a value in the constructed map. -/
lemma mapGet_some_of_mem (nums : List Str) (t : Str) (ht : t ∈ nums) :
    ∃ v, mapGet (buildMap nums) t = some v := by
  cases hget : mapGet (buildMap nums) t with
  | none => exact absurd ((mapGet_buildMap_none_iff nums t).mp hget) (by simp [ht])
  | some v => exact ⟨v, rfl⟩

/-- `intoDecimal` fails exactly on a non-empty input that cannot be fully
tokenized (in the operational sense of its tokenizer). -/
lemma intoDecimal_error_iff (c : Converter) (hcon : Constructed c) (s : Str) :
    (∃ e, intoDecimal c s = .error e) ↔ s ≠ [] ∧ CantTokenize c s := by
  obtain ⟨hrad, h2, hne, hmv, hords⟩ := constructed_facts c hcon
  by_cases hs : s = []
  · subst hs
    rw [intoDecimal]
    simp [CantTokenize]
  · cases hord : c.orderedNumerals with
    | none =>
        rw [intoDecimal_none_mode c hord s hs]
        simp only [CantTokenize, hord]
        constructor
        · rintro ⟨e, he⟩
          cases hlk : lookupAll c (s.map (fun ch => [ch])) with
          | error e' =>
              obtain ⟨t, ht, hnone⟩ := (lookupAll_error_iff c _).mp ⟨e', hlk⟩
              obtain ⟨ch, hch, rfl⟩ := List.mem_map.mp ht
              refine ⟨hs, ch, hch, ?_⟩
              rw [hmv] at hnone
              exact (mapGet_buildMap_none_iff c.numerals [ch]).mp hnone
          | ok vs =>
              rw [hlk] at he
              simp at he
        · rintro ⟨_, ch, hch, hnotin⟩
          have hnone : mapGet c.numeralValues [ch] = none := by
            rw [hmv]
            exact (mapGet_buildMap_none_iff c.numerals [ch]).mpr hnotin
          have hmm : ([ch] : Str) ∈ s.map (fun c0 => [c0]) :=
            List.mem_map.mpr ⟨ch, hch, rfl⟩
          obtain ⟨e, he⟩ := (lookupAll_error_iff c _).mpr ⟨[ch], hmm, hnone⟩
          exact ⟨e, by rw [he]⟩
    | some ord =>
        have hordeq : ord = sortDesc c.numerals := hords ord hord
        have hneord : ∀ u ∈ ord, u ≠ [] := by
          intro u hu
          rw [hordeq] at hu
          exact hne u ((mem_sortDesc _ _).mp hu)
        rw [intoDecimal_some_mode c ord hord s hs]
        simp only [CantTokenize, hord]
        constructor
        · rintro ⟨e, he⟩
          cases hg : greedyGo ord s.length s with
          | error e' =>
              exact ⟨hs, (greedyGo_error_iff ord hneord s.length s (le_refl _)).mp ⟨e', hg⟩⟩
          | ok toks =>
              exfalso
              rw [hg] at he
              have he2 : (match lookupAll c toks with
                  | Except.error e => (Except.error e : Except JsErr Nat)
                  | Except.ok vs => Except.ok (posValue c.radix vs)) = Except.error e := he
              cases hlk : lookupAll c toks with
              | error e' =>
                  obtain ⟨t, ht, hnone⟩ := (lookupAll_error_iff c _).mp ⟨e', hlk⟩
                  have htmem : t ∈ c.numerals := by
                    have := greedyGo_ok_mem ord s.length s toks hg t ht
                    rw [hordeq] at this
                    exact (mem_sortDesc _ _).mp this
                  obtain ⟨v, hv⟩ := mapGet_some_of_mem c.numerals t htmem
                  rw [hmv, hv] at hnone
                  cases hnone
              | ok vs =>
                  rw [hlk] at he2
                  simp at he2
        · rintro ⟨_, hstuck⟩
          obtain ⟨e, he⟩ :=
            (greedyGo_error_iff ord hneord s.length s (le_refl _)).mpr hstuck
          exact ⟨e, by rw [he]⟩

/-! ### Termination of the operations on their intended domains -/

/-- Decoding never diverges on a constructed instance (its fuel, the input
length, is always sufficient because numerals are non-empty). -/
lemma intoDecimal_not_noTerm (c : Converter) (hcon : Constructed c) (s : Str) :
    intoDecimal c s ≠ .error .noTerm := by
  obtain ⟨hrad, h2, hne, hmv, hords⟩ := constructed_facts c hcon
  by_cases hs : s = []
  · subst hs
    rw [intoDecimal]
    simp
  · intro hcontra
    cases hord : c.orderedNumerals with
    | none =>
        rw [intoDecimal_none_mode c hord s hs] at hcontra
        cases hlk : lookupAll c (s.map (fun ch => [ch])) with
        | error e' =>
            rw [hlk] at hcontra
            injection hcontra with he
            obtain ⟨t, ht⟩ := lookupAll_error_syn c _ e' hlk
            rw [ht] at he
            cases he
        | ok vs =>
            rw [hlk] at hcontra
            cases hcontra
    | some ord =>
        have hordeq : ord = sortDesc c.numerals := hords ord hord
        have hneord : ∀ u ∈ ord, u ≠ [] := by
          intro u hu
          rw [hordeq] at hu
          exact hne u ((mem_sortDesc _ _).mp hu)
        rw [intoDecimal_some_mode c ord hord s hs] at hcontra
        cases hg : greedyGo ord s.length s with
        | error e' =>
            rw [hg] at hcontra
            injection hcontra with he
            obtain ⟨rem, hrem⟩ := greedyGo_error_syn ord hneord s.length s (le_refl _) e' hg
            rw [hrem] at he
            cases he
        | ok toks =>
            rw [hg] at hcontra
            have hcontra2 : (match lookupAll c toks with
                | Except.error e => (Except.error e : Except JsErr Nat)
                | Except.ok vs => Except.ok (posValue c.radix vs)) =
                .error .noTerm := hcontra
            cases hlk : lookupAll c toks with
            | error e' =>
                rw [hlk] at hcontra2
                injection hcontra2 with he
                obtain ⟨t, ht⟩ := lookupAll_error_syn c _ e' hlk
                rw [ht] at he
                cases he
            | ok vs =>
                rw [hlk] at hcontra2
                cases hcontra2

/-- Encoding terminates (with a string result) on every natural number. -/
lemma fromDecimal_nat_ok (c : Converter) (hcon : Constructed c) (n : Nat) :
    ∃ out, fromDecimal c (n : ℚ) = .ok out := by
  obtain ⟨hrad, h2, hne, hmv, hords⟩ := constructed_facts c hcon
  obtain ⟨ids, hgo, _, _, _⟩ := fromDecimalGo_encode c hrad h2 n n (by simp) []
  refine ⟨(ids.map (fun i => c.numerals.getD i [])).flatten ++ [], ?_⟩
  rw [fromDecimal]
  simp only [Int.floor_natCast, Int.natAbs_ofNat]
  exact hgo

/-! ### The reference definition of decoding agrees with the code -/

lemma okOf_greedyGo (ord : List Str) :
    ∀ fuel (s : Str), okOf (greedyGo ord fuel s) = refGreedy ord fuel s := by
  intro fuel
  induction fuel with
  | zero => intro s; cases s <;> rfl
  | succ f ih =>
      intro s
      cases s with
      | nil => rfl
      | cons ch rest =>
          rw [greedyGo, refGreedy]
          simp only [firstMatch]
          cases hfm : List.find? (fun u => u.isPrefixOf (ch :: rest)) ord with
          | none => rfl
          | some u =>
              cases hrec : greedyGo ord f ((ch :: rest).drop u.length) with
              | error e =>
                  have := ih ((ch :: rest).drop u.length)
                  rw [hrec] at this
                  simp only [hrec, ← this]
                  rfl
              | ok toks =>
                  have := ih ((ch :: rest).drop u.length)
                  rw [hrec] at this
                  simp only [hrec, ← this]
                  rfl

lemma okOf_lookupAll (c : Converter) :
    ∀ toks : List Str, okOf (lookupAll c toks) = toks.mapM (mapGet c.numeralValues) := by
  intro toks
  induction toks with
  | nil => rfl
  | cons t ts ih =>
      rw [List.mapM_cons]
      cases hget : mapGet c.numeralValues t with
      | none =>
          have hstep : lookupAll c (t :: ts) = .error (.synE [t]) := by
            rw [lookupAll, lookupE, hget]
          rw [hstep]
          rfl
      | some v =>
          have hlk : lookupE c t = .ok v := by rw [lookupE, hget]
          have hstep : lookupAll c (t :: ts) = (match lookupAll c ts with
              | .error e => .error e
              | .ok vs => .ok (v :: vs)) := by
            rw [lookupAll, hlk]
          rw [hstep, ← ih]
          cases hrest : lookupAll c ts with
          | error e => rfl
          | ok vs => rfl

lemma mapM_eq_none {α β : Type} (f : α → Option β) :
    ∀ (l : List α) (t : α), t ∈ l → f t = none → l.mapM f = none := by
  intro l
  induction l with
  | nil => intro t ht; cases ht
  | cons x xs ih =>
      intro t ht hf
      rw [List.mapM_cons]
      rcases List.mem_cons.mp ht with rfl | ht'
      · rw [hf]
        rfl
      · cases hx : f x with
        | none => rfl
        | some v =>
            rw [ih t ht' hf]
            rfl

lemma firstMatch_singleton (ord : List Str) (hsing : ∀ u ∈ ord, ∃ c0, u = [c0])
    (ch : Char) (rest : List Char) :
    firstMatch ord (ch :: rest) = if ([ch] : Str) ∈ ord then some [ch] else none := by
  induction ord with
  | nil => rfl
  | cons u os ih =>
      obtain ⟨c0, rfl⟩ := hsing u (by simp)
      rw [firstMatch, List.find?_cons]
      by_cases he : c0 = ch
      · subst he
        have hp : ([c0] : Str).isPrefixOf (c0 :: rest) = true := by
          simp [List.isPrefixOf]
        simp [hp]
      · have hp : ([c0] : Str).isPrefixOf (ch :: rest) = false := by
          simp [List.isPrefixOf, he]
        have hne2 : ([ch] : Str) ≠ [c0] := by
          intro hcontra
          injection hcontra with h1 _
          exact he h1.symm
        rw [hp]
        have := ih (fun u hu => hsing u (by simp [hu]))
        rw [firstMatch] at this
        rw [this]
        by_cases hin : ([ch] : Str) ∈ os
        · rw [if_pos hin, if_pos (by simp [hin])]
        · rw [if_neg hin, if_neg (by simp [hin, hne2])]

lemma greedy_singletons (ord : List Str) (hsing : ∀ u ∈ ord, ∃ c0, u = [c0]) :
    ∀ (s : Str) (fuel : Nat), s.length ≤ fuel →
      ((∀ ch ∈ s, ([ch] : Str) ∈ ord) →
        greedyGo ord fuel s = .ok (s.map (fun ch => [ch]))) ∧
      ((∃ ch ∈ s, ([ch] : Str) ∉ ord) →
        ∃ rem, greedyGo ord fuel s = .error (.synE [rem])) := by
  intro s
  induction s with
  | nil =>
      intro fuel _
      constructor
      · intro _
        cases fuel <;> rfl
      · rintro ⟨ch, h, _⟩
        cases h
  | cons ch rest ih =>
      intro fuel hlen
      cases fuel with
      | zero => simp at hlen
      | succ f =>
          have hfm := firstMatch_singleton ord hsing ch rest
          have hdrop : (ch :: rest).drop ([ch] : Str).length = rest := rfl
          have hf : rest.length ≤ f := by
            simp only [List.length_cons] at hlen
            omega
          constructor
          · intro hpres
            have hin : ([ch] : Str) ∈ ord := hpres ch (by simp)
            rw [greedyGo, hfm, if_pos hin]
            have hrec := (ih f hf).1 (fun c0 hc0 => hpres c0 (by simp [hc0]))
            simp only [hdrop, hrec]
            rfl
          · rintro ⟨c0, hc0, hnot⟩
            rcases List.mem_cons.mp hc0 with rfl | hc0'
            · rw [greedyGo, hfm, if_neg hnot]
              exact ⟨c0 :: rest, rfl⟩
            · by_cases hin : ([ch] : Str) ∈ ord
              · rw [greedyGo, hfm, if_pos hin]
                obtain ⟨rem, hrem⟩ := (ih f hf).2 ⟨c0, hc0', hnot⟩
                refine ⟨rem, ?_⟩
                simp only [hdrop, hrem]
              · rw [greedyGo, hfm, if_neg hin]
                exact ⟨ch :: rest, rfl⟩

lemma constructed_none_singletons (c : Converter) (hcon : Constructed c)
    (hord : c.orderedNumerals = none) :
    c.numerals.all (fun t => t.length = 1) = true := by
  rcases hcon with ⟨nums, v, hc⟩ | ⟨s, v, hc⟩
  · obtain ⟨_, _, _, _, _, _, h7⟩ := makeFromArray_ok nums v c hc
    rw [h7] at hord
    cases hord
  · obtain ⟨h1, _, _, _, _, _⟩ := makeFromString_ok s v c hc
    rw [List.all_eq_true]
    intro t ht
    rw [h1] at ht
    unfold jsStrChars at ht
    cases s with
    | nil =>
        simp only [List.mem_map] at ht
        obtain ⟨ch, _, rfl⟩ := ht
        simp
    | cons ch r =>
        simp only [List.mem_singleton] at ht
        subst ht
        simp

lemma okOf_lookup_pipeline (c : Converter) (toks : List Str) :
    okOf (match lookupAll c toks with
          | Except.error e => (Except.error e : Except JsErr Nat)
          | Except.ok vs => Except.ok (posValue c.radix vs)) =
      (toks.mapM (mapGet c.numeralValues)).map (posValue c.radix) := by
  rw [← okOf_lookupAll]
  cases hlk : lookupAll c toks with
  | error e => rfl
  | ok vs => rfl

/-- On every constructed instance the code's `intoDecimal` and the spec's
reference definition agree: same successes with the same value, failure
exactly together. -/
lemma okOf_intoDecimal_eq_ref (c : Converter) (hcon : Constructed c) (s : Str) :
    okOf (intoDecimal c s) = refIntoDecimal c s := by
  obtain ⟨hrad, h2, hne, hmv, hords⟩ := constructed_facts c hcon
  by_cases hs : s = []
  · subst hs
    rw [intoDecimal]
    simp only [if_pos rfl]
    rw [refIntoDecimal, refTokenize]
    by_cases hall : c.numerals.all (fun t => t.length = 1) = true
    · rw [if_pos hall]
      rfl
    · rw [if_neg hall]
      rfl
  · cases hord : c.orderedNumerals with
    | none =>
        have hall := constructed_none_singletons c hcon hord
        rw [intoDecimal_none_mode c hord s hs, okOf_lookup_pipeline]
        rw [refIntoDecimal, refTokenize, if_pos hall]
        rfl
    | some ord =>
        have hordeq := hords ord hord
        by_cases hall : c.numerals.all (fun t => t.length = 1) = true
        · have hsing : ∀ u ∈ ord, ∃ c0, u = [c0] := by
            intro u hu
            have hu' : u ∈ c.numerals := by
              rw [hordeq] at hu
              exact (mem_sortDesc _ _).mp hu
            have hlen1 := List.all_eq_true.mp hall u hu'
            simp only [decide_eq_true_eq] at hlen1
            cases u with
            | nil => simp at hlen1
            | cons a b =>
                cases b with
                | nil => exact ⟨a, rfl⟩
                | cons x y => simp at hlen1
          rw [intoDecimal_some_mode c ord hord s hs]
          rw [refIntoDecimal, refTokenize, if_pos hall]
          by_cases hpres : ∀ ch ∈ s, ([ch] : Str) ∈ ord
          · have hg := (greedy_singletons ord hsing s s.length (le_refl _)).1 hpres
            rw [hg]
            exact okOf_lookup_pipeline c (s.map (fun ch => [ch]))
          · push_neg at hpres
            obtain ⟨ch, hch, hnot⟩ := hpres
            obtain ⟨rem, hg⟩ :=
              (greedy_singletons ord hsing s s.length (le_refl _)).2 ⟨ch, hch, hnot⟩
            rw [hg]
            have hnotnum : ([ch] : Str) ∉ c.numerals := by
              intro hmem
              exact hnot (hordeq ▸ (mem_sortDesc c.numerals [ch]).mpr hmem)
            have hnone : mapGet c.numeralValues [ch] = none := by
              rw [hmv]
              exact (mapGet_buildMap_none_iff c.numerals [ch]).mpr hnotnum
            have hmapm : (s.map (fun ch => [ch])).mapM (mapGet c.numeralValues) = none :=
              mapM_eq_none _ _ ([ch] : Str) (List.mem_map.mpr ⟨ch, hch, rfl⟩) hnone
            show (none : Option Nat) = (some (s.map fun ch => [ch])).bind
              fun toks => (toks.mapM (mapGet c.numeralValues)).map (posValue c.radix)
            rw [Option.some_bind, hmapm]
            rfl
        · rw [intoDecimal_some_mode c ord hord s hs]
          rw [refIntoDecimal, refTokenize, if_neg hall]
          rw [hordeq, ← okOf_greedyGo]
          cases hg : greedyGo (sortDesc c.numerals) s.length s with
          | error e => rfl
          | ok toks => exact okOf_lookup_pipeline c toks

/-- Decoding failures are always `SyntaxError`s (never another kind). -/
lemma intoDecimal_error_syn (c : Converter) (hcon : Constructed c) (s : Str)
    (e : JsErr) (he : intoDecimal c s = .error e) : ∃ toks, e = .synE toks := by
  obtain ⟨hrad, h2, hne, hmv, hords⟩ := constructed_facts c hcon
  by_cases hs : s = []
  · subst hs
    rw [intoDecimal] at he
    simp at he
  · cases hord : c.orderedNumerals with
    | none =>
        rw [intoDecimal_none_mode c hord s hs] at he
        cases hlk : lookupAll c (s.map (fun ch => [ch])) with
        | error e' =>
            rw [hlk] at he
            injection he with he2
            obtain ⟨t, ht⟩ := lookupAll_error_syn c _ e' hlk
            exact ⟨[t], by rw [← he2, ht]⟩
        | ok vs =>
            rw [hlk] at he
            cases he
    | some ord =>
        have hordeq : ord = sortDesc c.numerals := hords ord hord
        have hneord : ∀ u ∈ ord, u ≠ [] := by
          intro u hu
          rw [hordeq] at hu
          exact hne u ((mem_sortDesc _ _).mp hu)
        rw [intoDecimal_some_mode c ord hord s hs] at he
        cases hg : greedyGo ord s.length s with
        | error e' =>
            rw [hg] at he
            injection he with he2
            obtain ⟨rem, hrem⟩ := greedyGo_error_syn ord hneord s.length s (le_refl _) e' hg
            exact ⟨[rem], by rw [← he2, hrem]⟩
        | ok toks =>
            rw [hg] at he
            have he2 : (match lookupAll c toks with
                | Except.error e => (Except.error e : Except JsErr Nat)
                | Except.ok vs => Except.ok (posValue c.radix vs)) = .error e := he
            cases hlk : lookupAll c toks with
            | error e' =>
                rw [hlk] at he2
                injection he2 with he3
                obtain ⟨t, ht⟩ := lookupAll_error_syn c _ e' hlk
                exact ⟨[t], by rw [← he3, ht]⟩
            | ok vs =>
                rw [hlk] at he2
                cases he2

/-- `fromDecimal` only depends on the input through its floor (toward
negative infinity). -/
lemma fromDecimal_floor_eq (c : Converter) (q : ℚ) :
    fromDecimal c q = fromDecimal c ((⌊q⌋ : ℤ) : ℚ) := by
  simp only [fromDecimal, Int.floor_intCast]

lemma jsTrunc_of_nonneg (q : ℚ) (h : 0 ≤ q) : jsTrunc q = ⌊q⌋ := by
  rw [jsTrunc, if_neg (not_lt.mpr h)]

/-- `fromDecimal 0` is the numeral of index 0, a single non-empty token. -/
lemma fromDecimal_zero_eq (c : Converter) (hcon : Constructed c) :
    fromDecimal c 0 = .ok (c.numerals.getD 0 []) ∧ c.numerals.getD 0 [] ≠ [] := by
  obtain ⟨hrad, h2, hne, hmv, hords⟩ := constructed_facts c hcon
  have hlen0 : 0 < c.numerals.length := by omega
  have htm : (0 : ℤ).tmod (c.radix : ℤ) = ((0 : ℕ) : ℤ) := by
    have := tmod_natCast 0 c.radix
    simpa using this
  have hfd : (0 : ℤ).fdiv (c.radix : ℤ) = 0 := by
    have := fdiv_natCast 0 c.radix
    simpa using this
  constructor
  · rw [fromDecimal]
    simp only [Int.floor_zero, Int.natAbs_zero]
    rw [fromDecimalGo, if_pos hfd, htm]
    rw [numAt_natCast c 0 hlen0]
    rw [List.append_nil]
  · rw [List.getD_eq_getElem _ _ hlen0]
    exact hne _ (List.getElem_mem _)

/-- The loop-body index of `fromDecimal` is in range for non-negative `d`,
so the numeral lookup never sees `undefined`, and the next value is again
non-negative. -/
lemma loop_index_in_range (c : Converter) (hcon : Constructed c)
    (d : ℤ) (hd : 0 ≤ d) :
    0 ≤ d.tmod (c.radix : ℤ) ∧ d.tmod (c.radix : ℤ) < (c.radix : ℤ) ∧
    (d.tmod (c.radix : ℤ)).toNat < c.numerals.length ∧
    numAt c (d.tmod (c.radix : ℤ)) =
      c.numerals.getD (d.tmod (c.radix : ℤ)).toNat [] ∧
    0 ≤ d.fdiv (c.radix : ℤ) := by
  obtain ⟨hrad, h2, hne, hmv, hords⟩ := constructed_facts c hcon
  have hrpos : 0 < c.radix := by omega
  obtain ⟨n, rfl⟩ : ∃ n : ℕ, d = (n : ℤ) := ⟨d.toNat, (Int.toNat_of_nonneg hd).symm⟩
  have htm : ((n : ℤ)).tmod (c.radix : ℤ) = ((n % c.radix : ℕ) : ℤ) := tmod_natCast n c.radix
  have hfd : ((n : ℤ)).fdiv (c.radix : ℤ) = ((n / c.radix : ℕ) : ℤ) := fdiv_natCast n c.radix
  have hmod : n % c.radix < c.radix := Nat.mod_lt _ hrpos
  have hmodlen : n % c.radix < c.numerals.length := by omega
  refine ⟨?_, ?_, ?_, ?_, ?_⟩
  · rw [htm]; positivity
  · rw [htm]; exact_mod_cast hmod
  · rw [htm]; simpa using hmodlen
  · rw [htm]
    have := numAt_natCast c (n % c.radix) hmodlen
    simpa using this
  · rw [hfd]; positivity

/-! ### Concrete instances used by the claim witnesses -/

lemma base2c_make : makeFromArray b2 true = .ok base2c := by
  simp [makeFromArray, coerceNumerals, validateAll, valAllGo, valGo, sortDesc, insertDesc,
    buildMap, buildMapGo, mapSet, bind, Except.bind, pure, Except.pure, b2, base2c]

lemma base2c_constructed : Constructed base2c := Or.inl ⟨b2, true, base2c_make⟩

/-! ### Claim theorems -/

/-- C1: the claim says a string alphabet is split into its characters, with
construction succeeding for ≥ 2 distinct characters.  The code instead
spreads `numerals[0]` (the first character only), so string-mode
construction throws `RangeError` for every non-empty string — contradicting
the constructor's own documented example `new RadixConverter("0123456789abcdef")`
and every readme example.  This theorem evaluates the code's behaviour:
every non-empty string alphabet fails with `RangeError`, for both
validation settings. -/
theorem stringMode_always_rangeError (s : Str) (v : Bool) (hs : s ≠ []) :
    makeFromString s v = .error .rangeE := by
  cases s with
  | nil => exact absurd rfl hs
  | cons ch r =>
      simp [makeFromString, jsStrChars, bind, Except.bind, pure, Except.pure, throw,
        throwThe, MonadExceptOf.throw]

theorem stringMode_always_rangeError_witness :
    (['0', '1'] : Str) ≠ [] ∧ makeFromString ['0', '1'] true = .error .rangeE :=
  ⟨by decide, stringMode_always_rangeError ['0', '1'] true (by decide)⟩

/-- C2 (counterexample): the claim says every array alphabet with one token
a proper prefix of another fails validation; but `["a", "ab"]` — the spec's
own example — is accepted by the recursive ambiguity check, because the
dangling suffix `"b"` conflicts with no token. -/
theorem prefixPair_accepted_cex :
    isOkE (makeFromArray [['a'], ['a', 'b']] true) = true := by
  simp [makeFromArray, coerceNumerals, validateAll, valAllGo, valGo, sortDesc, insertDesc,
    buildMap, buildMapGo, mapSet, bind, Except.bind, pure, Except.pure, isOkE]

/-- C2 (amended): validation rejects a prefix pair only when the dangling
suffix itself collides with a token (a genuine tokenization ambiguity):
`["a", "aa"]` fails with a `TypeError` naming both conflicting tokens. -/
theorem ambiguousPair_rejected :
    makeFromArray [['a'], ['a', 'a']] true = .error (.typeE [['a', 'a'], ['a']]) := by
  simp [makeFromArray, coerceNumerals, validateAll, valAllGo, valGo, sortDesc, insertDesc,
    buildMap, buildMapGo, mapSet, bind, Except.bind, pure, Except.pure]

/-- C3 (counterexample): with validation disabled the system `["aa", "a"]`
constructs successfully but violates the round-trip:
`intoDecimal (fromDecimal 2)` is `1`, not `2` (greedy longest-match
mis-tokenizes `"aaa"` as `"aa","a"`). -/
theorem roundtrip_unvalidated_cex :
    ((do
        let c ← makeFromArray [['a', 'a'], ['a']] false
        let s ← fromDecimal c 2
        intoDecimal c s : Except JsErr Nat) = .ok 1) ∧
    ((do
        let c ← makeFromArray [['a', 'a'], ['a']] false
        let s ← fromDecimal c 2
        intoDecimal c s : Except JsErr Nat) ≠ .ok 2) := by
  constructor <;> decide

/-- C3 (amended): for every system constructed with validation enabled
(array mode; string mode constructs nothing) and every natural number `n`,
`intoDecimal (fromDecimal n) = n`. -/
theorem roundtrip_validated (nums : List Str) (c : Converter)
    (hc : makeFromArray nums true = .ok c) (n : ℕ) :
    ∃ s, fromDecimal c ((n : ℕ) : ℚ) = .ok s ∧ intoDecimal c s = .ok n :=
  validated_roundtrip nums c hc n

theorem roundtrip_validated_witness :
    makeFromArray b2 true = .ok base2c ∧
    (∃ s, fromDecimal base2c ((5 : ℕ) : ℚ) = .ok s ∧ intoDecimal base2c s = .ok 5) :=
  ⟨base2c_make, roundtrip_validated b2 base2c base2c_make 5⟩

/-- C4: on every constructed instance, `intoDecimal` agrees with the spec's
reference definition (character tokenization for single-character
alphabets, greedy longest-first tokenization over the length-descending
sorted list otherwise, positional sum `value * radix ^ (L-1-i)`): same
successes with the same value, failure exactly together. -/
theorem intoDecimal_matches_reference (c : Converter) (hcon : Constructed c) (s : Str) :
    okOf (intoDecimal c s) = refIntoDecimal c s :=
  okOf_intoDecimal_eq_ref c hcon s

theorem intoDecimal_matches_reference_witness :
    Constructed base2c ∧
    okOf (intoDecimal base2c ['1', '0']) = refIntoDecimal base2c ['1', '0'] :=
  ⟨base2c_constructed, intoDecimal_matches_reference base2c base2c_constructed ['1', '0']⟩

/-- C5 (counterexample): the claim says the coerced input is truncated
toward zero, so `fromDecimal (-1/2)` should equal `fromDecimal 0`.  The
code floors toward negative infinity (`Math.floor`): on `-1/2` the loop
starts at `-1` and never terminates (the model's `noTerm`), while on the
truncation `0` it returns `"0"`. -/
theorem truncation_claim_cex :
    fromDecimal base2c (-(1 : ℚ)/2) = .error .noTerm ∧
    fromDecimal base2c ((jsTrunc (-(1 : ℚ)/2) : ℤ) : ℚ) = .ok ['0'] ∧
    fromDecimal base2c (-(1 : ℚ)/2) ≠
      fromDecimal base2c ((jsTrunc (-(1 : ℚ)/2) : ℤ) : ℚ) := by
  have hfl : (⌊-(1 : ℚ)/2⌋ : ℤ) = -1 := by
    rw [Int.floor_eq_iff] <;> norm_num
  have htr : (jsTrunc (-(1 : ℚ)/2)) = 0 := by
    rw [jsTrunc, if_pos (by norm_num), Int.ceil_eq_iff] <;> norm_num
  have h1 : fromDecimal base2c (-(1 : ℚ)/2) = .error .noTerm := by
    simp only [fromDecimal, hfl]
    decide
  have h2 : fromDecimal base2c ((jsTrunc (-(1 : ℚ)/2) : ℤ) : ℚ) = .ok ['0'] := by
    rw [htr]
    decide
  refine ⟨h1, h2, ?_⟩
  rw [h1, h2]
  decide

/-- C5 (amended): `fromDecimal`'s input is coerced and floored toward
NEGATIVE INFINITY: `fromDecimal x = fromDecimal ⌊x⌋` for every rational
input; for non-negative inputs this coincides with truncation toward
zero. -/
theorem fromDecimal_floors (c : Converter) (q : ℚ) :
    fromDecimal c q = fromDecimal c ((⌊q⌋ : ℤ) : ℚ) ∧
    (0 ≤ q → fromDecimal c q = fromDecimal c ((jsTrunc q : ℤ) : ℚ)) :=
  ⟨fromDecimal_floor_eq c q,
   fun h => by rw [jsTrunc_of_nonneg q h]; exact fromDecimal_floor_eq c q⟩

theorem fromDecimal_floors_witness :
    (fromDecimal base2c ((7 : ℚ)/2) = fromDecimal base2c ((⌊(7 : ℚ)/2⌋ : ℤ) : ℚ)) ∧
    (0 ≤ (7 : ℚ)/2) ∧
    (fromDecimal base2c ((7 : ℚ)/2) =
      fromDecimal base2c ((jsTrunc ((7 : ℚ)/2) : ℤ) : ℚ)) :=
  ⟨(fromDecimal_floors base2c ((7 : ℚ)/2)).1, by norm_num,
   (fromDecimal_floors base2c ((7 : ℚ)/2)).2 (by norm_num)⟩

/-- C6 (counterexample): with validation disabled, duplicate numerals make
`numeralValues.size` smaller than `radix`: `["a", "a"]` constructs with
`radix = 2` but a 1-entry value map. -/
theorem mapSize_mismatch_cex :
    (makeFromArray [['a'], ['a']] false).map
      (fun c => (c.numeralValues.length, c.radix)) = .ok (1, 2) ∧ (1 : Nat) ≠ 2 := by
  constructor <;> decide

/-- C6 (amended): every instance the constructor returns satisfies
`radix = numerals.length ≥ 2`; `numeralValues.size = radix` additionally
holds whenever validation was enabled (array mode; duplicate numerals with
validation disabled shrink the map). -/
theorem radix_invariants :
    (∀ (nums : List Str) (v : Bool) (c : Converter), makeFromArray nums v = .ok c →
      c.radix = c.numerals.length ∧ 2 ≤ c.radix ∧
      (v = true → c.numeralValues.length = c.radix)) ∧
    (∀ (s : Str) (v : Bool) (c : Converter), makeFromString s v = .ok c →
      c.radix = c.numerals.length ∧ 2 ≤ c.radix) := by
  constructor
  · intro nums v c hc
    obtain ⟨h1, _, hval, h4, h5, h6, _⟩ := makeFromArray_ok nums v c hc
    refine ⟨by rw [h1, h5], by omega, ?_⟩
    intro hv
    have hnd : nums.Nodup := validateAll_nodup nums (hval hv)
    rw [h6, h5, buildMap_length_nodup nums hnd]
  · intro s v c hc
    obtain ⟨_, _, h3, h4, _, _⟩ := makeFromString_ok s v c hc
    exact ⟨h4, by omega⟩

theorem radix_invariants_witness :
    makeFromArray b2 true = .ok base2c ∧
    (base2c.radix = base2c.numerals.length ∧ 2 ≤ base2c.radix ∧
      (true = true → base2c.numeralValues.length = base2c.radix)) :=
  ⟨base2c_make, radix_invariants.1 b2 true base2c base2c_make⟩

/-- C7 (counterexample): the claim says every finite input terminates; but
on the finite input `-1` the loop body keeps `d = Math.floor(-1 / radix) = -1`
forever, so `fromDecimal (-1)` never reaches `0` — the model reports the
divergence marker `noTerm` (at every fuel, by `fromDecimalGo_neg`). -/
theorem negative_input_diverges_cex :
    makeFromArray b2 true = .ok base2c ∧
    fromDecimal base2c (-1) = .error .noTerm :=
  ⟨base2c_make, by decide⟩

/-- C7 (amended): on every constructed instance the operations terminate on
their intended domains: `fromDecimal` returns a string for every
non-negative integer, and `intoDecimal` never diverges. -/
theorem operations_terminate (c : Converter) (hcon : Constructed c) :
    (∀ n : ℕ, ∃ out, fromDecimal c ((n : ℕ) : ℚ) = .ok out) ∧
    (∀ s, intoDecimal c s ≠ .error .noTerm) :=
  ⟨fun n => fromDecimal_nat_ok c hcon n, fun s => intoDecimal_not_noTerm c hcon s⟩

theorem operations_terminate_witness :
    Constructed base2c ∧
    (∃ out, fromDecimal base2c ((6 : ℕ) : ℚ) = .ok out) ∧
    intoDecimal base2c ['0'] ≠ .error .noTerm :=
  ⟨base2c_constructed, (operations_terminate base2c base2c_constructed).1 6,
   (operations_terminate base2c base2c_constructed).2 ['0']⟩

/-- C8: `intoDecimal ""` returns `0`; a failure happens exactly on a
non-empty input that cannot be fully tokenized (in string mode, a character
absent from the alphabet; in array mode, the greedy tokenizer reaching a
non-empty remainder no numeral matches), it is always a `SyntaxError`, and
no partial result is returned (the result type is all-or-nothing). -/
theorem intoDecimal_empty_and_errors (c : Converter) (hcon : Constructed c) :
    intoDecimal c [] = .ok 0 ∧
    (∀ s, (∃ e, intoDecimal c s = .error e) ↔ s ≠ [] ∧ CantTokenize c s) ∧
    (∀ s e, intoDecimal c s = .error e → ∃ toks, e = .synE toks) :=
  ⟨by rw [intoDecimal]; simp,
   fun s => intoDecimal_error_iff c hcon s,
   fun s e he => intoDecimal_error_syn c hcon s e he⟩

theorem intoDecimal_empty_and_errors_witness :
    Constructed base2c ∧ intoDecimal base2c [] = .ok 0 ∧
    ((∃ e, intoDecimal base2c ['2'] = .error e) ↔
      (['2'] : Str) ≠ [] ∧ CantTokenize base2c ['2']) :=
  ⟨base2c_constructed, (intoDecimal_empty_and_errors base2c base2c_constructed).1,
   (intoDecimal_empty_and_errors base2c base2c_constructed).2.1 ['2']⟩

/-- C9: on every constructed instance `fromDecimal 0` returns exactly the
numeral at index 0 — a single, non-empty token — because the do-while loop
runs at least once. -/
theorem fromDecimal_zero_first_numeral (c : Converter) (hcon : Constructed c) :
    fromDecimal c 0 = .ok (c.numerals.getD 0 []) ∧ c.numerals.getD 0 [] ≠ [] :=
  fromDecimal_zero_eq c hcon

theorem fromDecimal_zero_first_numeral_witness :
    Constructed base2c ∧
    (fromDecimal base2c 0 = .ok (base2c.numerals.getD 0 []) ∧
      base2c.numerals.getD 0 [] ≠ []) :=
  ⟨base2c_constructed, fromDecimal_zero_first_numeral base2c base2c_constructed⟩

/-- C10: on every constructed instance and every non-negative `d`, the loop
index `d % radix` lies in `[0, radix)`, the numeral lookup is a genuine
in-bounds element (never the out-of-range `undefined` fallback of `numAt`),
and the next loop value `Math.floor(d / radix)` is again non-negative, so
the invariant propagates through every iteration. -/
theorem loop_index_always_in_range (c : Converter) (hcon : Constructed c)
    (d : ℤ) (hd : 0 ≤ d) :
    0 ≤ d.tmod (c.radix : ℤ) ∧ d.tmod (c.radix : ℤ) < (c.radix : ℤ) ∧
    (d.tmod (c.radix : ℤ)).toNat < c.numerals.length ∧
    numAt c (d.tmod (c.radix : ℤ)) =
      c.numerals.getD (d.tmod (c.radix : ℤ)).toNat [] ∧
    0 ≤ d.fdiv (c.radix : ℤ) :=
  loop_index_in_range c hcon d hd

theorem loop_index_always_in_range_witness :
    Constructed base2c ∧ (0 : ℤ) ≤ 5 ∧
    (0 ≤ (5 : ℤ).tmod (base2c.radix : ℤ) ∧
      (5 : ℤ).tmod (base2c.radix : ℤ) < (base2c.radix : ℤ) ∧
      ((5 : ℤ).tmod (base2c.radix : ℤ)).toNat < base2c.numerals.length ∧
      numAt base2c ((5 : ℤ).tmod (base2c.radix : ℤ)) =
        base2c.numerals.getD (((5 : ℤ).tmod (base2c.radix : ℤ))).toNat [] ∧
      0 ≤ (5 : ℤ).fdiv (base2c.radix : ℤ)) :=
  ⟨base2c_constructed, by decide,
   loop_index_always_in_range base2c base2c_constructed 5 (by decide)⟩
